import Mathlib

/-!
# Verification of the Google-Takeout file-processing scripts

Shallow embedding of the three reorganization components of the repository:

* the **Remote Listing Parser** and the **Collision-Safe Mover**
  (`mergeDirectoryContents` in `src/merge-google-takeout.ts`),
* the **Metadata-Driven Renamer** (`processDirectory` in the
  processing script),
* their dry-run behaviour and operation traces.

JavaScript string operations (`startsWith`, `endsWith`, `includes`,
`split(/\s{2,}/)`, `replace of the first case-insensitive "-edited"`) are modelled as executable
functions over `String.data` (lists of characters), so every concrete run
can be evaluated by the kernel.
-/

namespace Takeout

/-! ## String helpers (models of the JS string operations used) -/

/-- JS `hay.includes(needle)` on char lists: some suffix of `hay` has
`needle` as a prefix. -/
def csub (needle : List Char) : List Char → Bool
  | [] => needle.isEmpty
  | c :: rest => needle.isPrefixOf (c :: rest) || csub needle rest

/-- JS `hay.includes(needle)`. -/
def containsS (hay needle : String) : Bool := csub needle.data hay.data

/-- JS `s.startsWith(pre)`. -/
def startsWithS (s pre : String) : Bool := pre.data.isPrefixOf s.data

/-- JS `s.endsWith(suf)`. -/
def endsWithS (s suf : String) : Bool := suf.data.isSuffixOf s.data

/-- JS `s.startsWith(".")`. -/
def startsWithDot (s : String) : Bool :=
  match s.data with
  | [] => false
  | c :: _ => c == '.'

/-- JS `raw.split(sep-character)` on char lists. -/
def splitOnChar (sep : Char) : List Char → List (List Char)
  | [] => [[]]
  | c :: rest =>
    match splitOnChar sep rest with
    | [] => [[]]
    | h :: t => if c = sep then [] :: h :: t else (c :: h) :: t

/-- JS `raw.split("\n")`. -/
def splitNl (s : String) : List String :=
  (splitOnChar '\n' s.data).map (fun l => ⟨l⟩)

/-- JS `s.trim()`: strip leading and trailing whitespace. -/
def trimS (s : String) : String :=
  ⟨((s.data.dropWhile Char.isWhitespace).reverse.dropWhile Char.isWhitespace).reverse⟩

/-- JS `s.toLowerCase()` (ASCII case fold, as used on file names). -/
def toLowerS (s : String) : String := ⟨s.data.map Char.toLower⟩

/-- First token of `trimmed.split(/\s{2,}/)`: the token ends at the first
run of two or more whitespace characters. -/
def firstTok : List Char → List Char
  | [] => []
  | [c] => [c]
  | c :: d :: rest =>
    if c.isWhitespace && d.isWhitespace then []
    else c :: firstTok (d :: rest)

/-- JS `line.trim().split(/\s{2,}/)[0]` applied to an already-trimmed string. -/
def firstTokS (s : String) : String := ⟨firstTok s.data⟩

/-- `path.join(a, b)` for forward-slash remote paths. -/
def joinP (a b : String) : String := a ++ "/" ++ b

/-- Whether the 7 characters at the head spell `-edited` case-insensitively
(JS case-insensitive regex match of "-edited" at this position). -/
def isEditedPrefix (l : List Char) : Bool :=
  (l.take 7).map Char.toLower == "-edited".data

/-- JS `name.replace of the first case-insensitive "-edited"`: remove the first case-insensitive
occurrence of `-edited`. -/
def stripEdited : List Char → List Char
  | [] => []
  | c :: rest =>
    if isEditedPrefix (c :: rest) then List.drop 6 rest
    else c :: stripEdited rest

/-- String-level `name.replace of the first case-insensitive "-edited"`. -/
def stripEditedS (s : String) : String := ⟨stripEdited s.data⟩

/-- `path.extname(s).substring(1)`: the part after the last dot, empty for
no dot or a leading-dot-only name. -/
def extnameDrop (s : String) : String :=
  let parts := splitOnChar '.' s.data
  if parts.length ≤ 1 then ""
  else if startsWithDot s && parts.length == 2 then ""
  else ⟨parts.getLastD []⟩

/-! ## Decimal rendering of the collision counter

JS renders the counter with `${counter}` (decimal). A self-contained
decimal renderer is used so that its injectivity is provable. -/

/-- Decimal digits of `n`, assuming `n < fuel` (most significant first). -/
def decDigitsAux : Nat → Nat → List Char
  | 0, _ => []
  | fuel + 1, n =>
    if n < 10 then [Nat.digitChar n]
    else decDigitsAux fuel (n / 10) ++ [Nat.digitChar (n % 10)]

/-- Decimal rendering of a natural number, as in JS `${n}`. -/
def natToDec (n : Nat) : String := ⟨decDigitsAux (n + 1) n⟩

/-- Numeric value of a digit character. -/
def digitVal (c : Char) : Nat := c.toNat - 48

/-- Evaluate a decimal digit string back to a number. -/
def ofDec (l : List Char) : Nat := l.foldl (fun a c => a * 10 + digitVal c) 0

/-! ## Calendar conversion

`new Date(timestamp * 1000)` with the local getters `getFullYear`, … is
modelled as the civil-from-days conversion of `epoch + tzOffset`
(`tzOffset` is the local-time offset from UTC in seconds). -/

structure DateParts where
  year : Int
  month : Nat
  day : Nat
  hour : Nat
  minute : Nat
  second : Nat
deriving DecidableEq, Repr

/-- Convert an epoch-seconds timestamp to local calendar fields
(Howard Hinnant's civil-from-days algorithm, floor division). -/
def dateFromEpoch (tzOffsetSec : Int) (epochSec : Nat) : DateParts :=
  let t : Int := (epochSec : Int) + tzOffsetSec
  let days : Int := Int.fdiv t 86400
  let sod : Int := t - days * 86400
  let z : Int := days + 719468
  let era : Int := Int.fdiv z 146097
  let doe : Int := z - era * 146097
  let yoe : Int :=
    Int.fdiv (doe - Int.fdiv doe 1460 + Int.fdiv doe 36524 - Int.fdiv doe 146096) 365
  let y : Int := yoe + era * 400
  let doy : Int := doe - (365 * yoe + Int.fdiv yoe 4 - Int.fdiv yoe 100)
  let mp : Int := Int.fdiv (5 * doy + 2) 153
  let d : Int := doy - Int.fdiv (153 * mp + 2) 5 + 1
  let m : Int := mp + (if mp < 10 then 3 else -9)
  let yy : Int := y + (if m ≤ 2 then 1 else 0)
  { year := yy, month := m.toNat, day := d.toNat,
    hour := (Int.fdiv sod 3600).toNat,
    minute := ((Int.fdiv sod 60) % 60).toNat,
    second := (sod % 60).toNat }

/-- `String(n).padStart(2, "0")`. -/
def pad2 (n : Nat) : String := if n < 10 then "0" ++ toString n else toString n

/-- `formatDate` of the processing script: `YYYY-MM-DD_hh-mm-ss`. -/
def formatDate (d : DateParts) : String :=
  toString d.year ++ "-" ++ pad2 d.month ++ "-" ++ pad2 d.day ++ "_" ++
    pad2 d.hour ++ "-" ++ pad2 d.minute ++ "-" ++ pad2 d.second

/-- `formatExifDate` of the processing script: `YYYY:MM:DD hh:mm:ss`. -/
def formatExifDate (d : DateParts) : String :=
  toString d.year ++ ":" ++ pad2 d.month ++ ":" ++ pad2 d.day ++ " " ++
    pad2 d.hour ++ ":" ++ pad2 d.minute ++ ":" ++ pad2 d.second

/-! ## Remote operations

Every call made to the SMB client, the local temp files, and the
exiftool collaborator is recorded in a trace. -/

inductive RemoteOp where
  /-- `smbClient.dir(p)` (read-only). -/
  | list (p : String)
  /-- `smbClient.mkdir(p)` (mutating). -/
  | mkdir (p : String)
  /-- `smbClient.execute("rename", src dst)` (mutating). -/
  | rename (src dst : String)
  /-- `smbClient.getFile(src, dst)` (read-only remotely, writes local temp). -/
  | download (src dst : String)
  /-- `smbClient.sendFile(src, dst)` (mutating). -/
  | upload (src dst : String)
  /-- `exiftool.read(p)` (local, read-only). -/
  | exifRead (p : String)
  /-- `exiftool.write(p, AllDates := v)` (local staged copy). -/
  | exifWrite (p v : String)
  /-- `fs.unlink` of the sidecar temp copy. -/
  | unlinkJson (p : String)
  /-- `fs.unlink` of the media staging copy (the `finally` block). -/
  | removeTemp (p : String)
deriving DecidableEq, Repr

/-- Operations that mutate nothing (neither remote nor staged file
contents): listing, fetching, tag reading, temp-file removal. -/
def nonMutating : RemoteOp → Bool
  | .list _ => true
  | .download _ _ => true
  | .exifRead _ => true
  | .unlinkJson _ => true
  | .removeTemp _ => true
  | _ => false

/-- Operations that move, overwrite or retag a file. -/
def isFileMutation : RemoteOp → Bool
  | .rename _ _ => true
  | .upload _ _ => true
  | .exifWrite _ _ => true
  | _ => false

/-! ## Listing parsing

The raw result of `smbClient.dir` is a newline-separated long-format
listing. -/

/-- The line filter of `mergeDirectoryContents`: drop blank lines, the
`blocks of size` summary line, and every line whose trimmed form starts
with a dot. -/
def keepLineMerge (line : String) : Bool :=
  let t := trimS line
  t ≠ "" && !containsS t "blocks of size" && !startsWithDot t

/-- A parsed directory-listing entry. -/
structure DirEntry where
  name : String
  isDirectory : Bool
deriving DecidableEq, Repr

/-- The listing parser of `mergeDirectoryContents`: filter lines, take the
first `split(two-or-more-spaces)` token of the trimmed line as the name,
and recognise a directory by the `" D "` marker in the raw line. -/
def parseListing (raw : String) : List DirEntry :=
  ((splitNl raw).filter keepLineMerge).map
    (fun line => ⟨firstTokS (trimS line), containsS line " D "⟩)

/-- The line filter of the Renamer `processDirectory`: drop blank lines and
the summary line (dot-prefixed lines are kept here). -/
def keepLineRen (line : String) : Bool :=
  let t := trimS line
  t ≠ "" && !containsS t "blocks of size"

/-- Lines of a listing kept by the Renamer. -/
def renLines (raw : String) : List String :=
  (splitNl raw).filter keepLineRen

/-- Entry names of a listing as computed by the Renamer
(`line.trim().split(two-or-more-spaces)[0]`). -/
def renNames (raw : String) : List String :=
  (renLines raw).map (fun l => firstTokS (trimS l))

/-- Entries of a listing as computed by the Renamer loop:
name plus the `" D "` directory marker. -/
def renEntries (raw : String) : List (String × Bool) :=
  (renLines raw).map (fun l => (firstTokS (trimS l), containsS l " D "))

/-! ## The Metadata-Driven Renamer (`processDirectory` of the processing
script), modelled for one directory level.

The remote share, the sidecar contents, the exiftool answers and the
failure behaviour of the collaborators are an oracle `RWorld`. A recursive
call on a subdirectory entry is recorded as a `recursedDir` outcome. -/

/-- Sidecar metadata: the two timestamp key paths of the Takeout JSON. -/
structure SidecarMeta where
  photoTakenTs : Option Nat
  creationTs : Option Nat
deriving DecidableEq, Repr

/-- Where (if anywhere) the collaborators throw while processing one file. -/
inductive FailMode where
  | noFail
  | getFileFails
  | getJsonFails
  | jsonParseFails
  | exifReadFails
  | exifWriteFails
  | sendFileFails
deriving DecidableEq, Repr

/-- The environment of one `processDirectory` call. -/
structure RWorld where
  /-- Raw `smbClient.dir` output for the source directory. -/
  sourceListing : String
  /-- Raw `smbClient.dir` output for the target directory;
  `none` models the listing call throwing (new/empty target). -/
  targetListing : Option String
  /-- Parsed content of a sidecar JSON file by name; `none` models
  `JSON.parse` throwing. -/
  meta : String → Option SidecarMeta
  /-- `exiftool.read(...).FileTypeExtension` for a source file name;
  `none` models an absent tag (JS falsy). -/
  trueExt : String → Option String
  /-- Failure injection per source file name. -/
  failAt : String → FailMode
  /-- Local-time offset from UTC in seconds. -/
  tz : Int
  /-- The `IS_DRY_RUN` flag. -/
  dry : Bool

/-- Outcome of the loop body for one listing entry. -/
inductive FileOutcome where
  | skippedDotDir
  | recursedDir (n : String)
  | skippedJson (n : String)
  | skippedOriginal (n : String)
  | skippedExistingAsIs (n : String)
  | placedAsIs (n : String)
  | dryWouldCopy (n : String)
  | errored (n : String) (stage : FailMode)
  | skippedNoTimestamp (n : String)
  | skippedStillColliding (n : String)
  | dryWouldRename (n : String)
  | placedRenamed (finalName exif : String)
deriving DecidableEq, Repr

/-- `originalsToSkip`: for every name containing a case-insensitive
`-edited`, the name with the marker removed. -/
def originalsToSkip (fileNames : List String) : List String :=
  fileNames.filterMap
    (fun n => if containsS (toLowerS n) "-edited" then some (stripEditedS n) else none)

/-- Candidate final names: `base.ext`, `base(1).ext`, `base(2).ext`, … -/
def cand (fbase ext : String) : Nat → String
  | 0 => fbase ++ "." ++ ext
  | Nat.succ k => fbase ++ "(" ++ natToDec (k + 1) ++ ")." ++ ext

/-- The collision `while` loop: try candidate `i`, `i+1`, … while the
candidate is taken (`fuel` bounds the number of iterations). -/
def findFreeAux (taken : List String) (fbase ext : String) : Nat → Nat → String
  | 0, i => cand fbase ext i
  | Nat.succ fuel, i =>
    if cand fbase ext i ∈ taken then findFreeAux taken fbase ext fuel (i + 1)
    else cand fbase ext i

/-- Final-name search of the Renamer: first free candidate starting from
`base.ext` (a fuel of `taken.length + 1` suffices, see
`findFree_not_mem`). -/
def findFree (fbase ext : String) (taken : List String) : String :=
  findFreeAux taken fbase ext (taken.length + 1) 0

/-- `os.tmpdir()` staging path of a file. -/
def tmpP (n : String) : String := joinP "/tmp" n

/-- The `exiftool.read` extension resolution:
`(fileTags.FileTypeExtension || path.extname(entryName).substring(1)).toLowerCase()`. -/
def resolveExt (w : RWorld) (name : String) : String :=
  toLowerS (match w.trueExt name with
    | some tE => if tE = "" then extnameDrop name else tE
    | none => extnameDrop name)

/-- The derived base name: the formatted local capture time, with the
`-edited` suffix when the source name carries the marker. -/
def derivedBase (w : RWorld) (name : String) (ts : Nat) : String :=
  formatDate (dateFromEpoch w.tz ts) ++
    (if containsS (toLowerS name) "-edited" then "-edited" else "")

/-- Steps of the loop body after a timestamp was extracted: read the
tags, derive the name, search a free candidate, run the defensive
collision check, write the tag and upload. -/
def renamePhase (w : RWorld) (tgtDir tmp name : String) (existing : List String)
    (ts : Nat) (opsPre : List RemoteOp) :
    FileOutcome × List String × List RemoteOp :=
  let ops3 := opsPre ++ [RemoteOp.exifRead tmp]
  if w.failAt name = .exifReadFails then
    (.errored name .exifReadFails, existing, ops3 ++ [.removeTemp tmp])
  else
    let fname := findFree (derivedBase w name ts) (resolveExt w name) existing
    if fname ∈ existing then
      (.skippedStillColliding name, existing, ops3 ++ [.removeTemp tmp])
    else if w.dry then
      (.dryWouldRename fname, existing, ops3 ++ [.removeTemp tmp])
    else
      let ops4 := ops3 ++ [RemoteOp.exifWrite tmp (formatExifDate (dateFromEpoch w.tz ts))]
      if w.failAt name = .exifWriteFails then
        (.errored name .exifWriteFails, existing, ops4 ++ [.removeTemp tmp])
      else
        let ops5 := ops4 ++ [RemoteOp.upload tmp (joinP tgtDir fname)]
        if w.failAt name = .sendFileFails then
          (.errored name .sendFileFails, existing, ops5 ++ [.removeTemp tmp])
        else
          (.placedRenamed fname (formatExifDate (dateFromEpoch w.tz ts)),
            existing ++ [fname], ops5 ++ [.removeTemp tmp])

/-- Steps of the loop body once a sidecar was found: fetch and parse the
JSON, extract the timestamp (photo-taken first, creation as fallback). -/
def sidecarPhase (w : RWorld) (srcDir tgtDir tmp name : String)
    (existing : List String) (j : String) (ops0 : List RemoteOp) :
    FileOutcome × List String × List RemoteOp :=
  let jtmp := tmpP j
  let ops1 := ops0 ++ [RemoteOp.download (joinP srcDir j) jtmp]
  if w.failAt name = .getJsonFails then
    (.errored name .getJsonFails, existing, ops1 ++ [.removeTemp tmp])
  else
    match w.meta j with
    | none => (.errored name .jsonParseFails, existing, ops1 ++ [.removeTemp tmp])
    | some md =>
      let ops2 := ops1 ++ [RemoteOp.unlinkJson jtmp]
      match md.photoTakenTs.orElse (fun _ => md.creationTs) with
      | none => (.skippedNoTimestamp name, existing, ops2 ++ [.removeTemp tmp])
      | some ts => renamePhase w tgtDir tmp name existing ts ops2

/-- Steps of the loop body when no sidecar matches: copy the file as-is
unless its name already exists in the target. -/
def noSidecarPhase (w : RWorld) (tgtDir tmp name : String)
    (existing : List String) (ops0 : List RemoteOp) :
    FileOutcome × List String × List RemoteOp :=
  if name ∈ existing then
    (.skippedExistingAsIs name, existing, ops0 ++ [.removeTemp tmp])
  else if w.dry then
    (.dryWouldCopy name, existing, ops0 ++ [.removeTemp tmp])
  else if w.failAt name = .sendFileFails then
    (.errored name .sendFileFails, existing,
      ops0 ++ [.upload tmp (joinP tgtDir name), .removeTemp tmp])
  else
    (.placedAsIs name, existing,
      ops0 ++ [.upload tmp (joinP tgtDir name), .removeTemp tmp])

/-- The `try`/`finally` body for a plain file entry: stage the file
locally, look up the sidecar by prefix match, dispatch. -/
def filePhase (w : RWorld) (srcDir tgtDir : String) (fileNames : List String)
    (existing : List String) (name : String) :
    FileOutcome × List String × List RemoteOp :=
  let tmp := tmpP name
  let ops0 := [RemoteOp.download (joinP srcDir name) tmp]
  if w.failAt name = .getFileFails then
    (.errored name .getFileFails, existing, ops0 ++ [.removeTemp tmp])
  else
    match fileNames.find? (fun f => startsWithS f name && endsWithS f ".json") with
    | none => noSidecarPhase w tgtDir tmp name existing ops0
    | some j => sidecarPhase w srcDir tgtDir tmp name existing j ops0

/-- The loop body of `processDirectory` for one listing entry `e`, given
the source file-name set and the current known target names. Returns the
outcome, the updated known-name set, and the operation trace. -/
def processEntry (w : RWorld) (srcDir tgtDir : String) (fileNames : List String)
    (existing : List String) (e : String × Bool) :
    FileOutcome × List String × List RemoteOp :=
  let name := e.1
  if e.2 then
    if name = "." ∨ name = ".." then (.skippedDotDir, existing, [])
    else (.recursedDir name, existing, [])
  else if endsWithS (toLowerS name) ".json" || name ∈ originalsToSkip fileNames then
    (if name ∈ originalsToSkip fileNames then .skippedOriginal name
     else .skippedJson name, existing, [])
  else
    filePhase w srcDir tgtDir fileNames existing name

/-- Result of one `processDirectory` call. -/
structure RResult where
  results : List (String × FileOutcome)
  finalExisting : List String
  ops : List RemoteOp
deriving Repr

/-- One iteration of the `processDirectory` loop, threading the result
list, the known target names and the trace. -/
def processStep (w : RWorld) (srcDir tgtDir : String) (fileNames : List String)
    (acc : List (String × FileOutcome) × List String × List RemoteOp)
    (e : String × Bool) :
    List (String × FileOutcome) × List String × List RemoteOp :=
  let r := processEntry w srcDir tgtDir fileNames acc.2.1 e
  (acc.1 ++ [(e.1, r.1)], r.2.1, acc.2.2 ++ r.2.2)

/-- Initial target handling of `processDirectory`: list the target to
build the known-name set; when the listing throws, treat the target as
new and create it (unless the run is dry). -/
def initTarget (w : RWorld) (tgtDir : String) : List String × List RemoteOp :=
  match w.targetListing with
  | some raw => (renNames raw, [RemoteOp.list (joinP tgtDir "*")])
  | none =>
    ([], [RemoteOp.list (joinP tgtDir "*")] ++
      (if w.dry then [] else [RemoteOp.mkdir tgtDir]))

/-- One pass of the Renamer `processDirectory` over one source directory:
list the target (creating it when the listing fails and the run is not
dry), list the source, compute the skip set, and run the loop body over
every entry. -/
def processDirectory (w : RWorld) (srcDir tgtDir : String) : RResult :=
  let init : List String × List RemoteOp := initTarget w tgtDir
  let entries := renEntries w.sourceListing
  let fileNames := renNames w.sourceListing
  let fin := entries.foldl (processStep w srcDir tgtDir fileNames)
    ([], init.1, init.2 ++ [RemoteOp.list (joinP srcDir "*")])
  ⟨fin.1, fin.2.1, fin.2.2⟩

/-- The names of the files actually placed in the target by one pass. -/
def placedNames (results : List (String × FileOutcome)) : List String :=
  results.filterMap (fun r =>
    match r.2 with
    | .placedAsIs n => some n
    | .placedRenamed n _ => some n
    | _ => none)

/-- The final names placed through the derived-name (rename) path only. -/
def renamedNames (results : List (String × FileOutcome)) : List String :=
  results.filterMap (fun r =>
    match r.2 with
    | .placedRenamed n _ => some n
    | _ => none)

/-! ## The Collision-Safe Mover (`mergeDirectoryContents`)

The remote state of one directory is a tree: an ordered list of entries,
each a file name or a named subtree. A target path is a directory, an
existing plain file (renames into it fail), or absent (`mkdir` creates
it). Recursion depth is bounded by explicit fuel; with fuel at least the
tree depth the model is exact, and idempotence holds for every fuel. -/

inductive FsTree where
  | node : List (String × Option FsTree) → FsTree

/-- A directory entry: a file (`none`) or a subdirectory with its tree. -/
abbrev Ent := String × Option FsTree

def FsTree.entries : FsTree → List Ent
  | .node es => es

/-- The state of a target path on the share. -/
inductive TState where
  | dir (t : FsTree)
  | file
  | absent

/-- Names present in a directory. -/
def names (es : List Ent) : List String := es.map Prod.fst

/-- Look up the entry value for a name. -/
def entryAt : List Ent → String → Option (Option FsTree)
  | [], _ => none
  | (m, v) :: rest, n => if m = n then some v else entryAt rest n

/-- The target state the entry loop computes for a subdirectory name:
an existing subtree, an existing plain file, or nothing. -/
def tsFromLookup (tes : List Ent) (n : String) : TState :=
  match entryAt tes n with
  | some (some td) => .dir td
  | some none => .file
  | none => .absent

/-- Replace (or append) the subtree stored under a name. -/
def setEntry : List Ent → String → FsTree → List Ent
  | [], n, t => [(n, some t)]
  | (m, v) :: rest, n, t =>
    if m = n then (n, some t) :: rest else (m, v) :: setEntry rest n t

/-- The entry loop of `mergeDirectoryContents`, processing the filtered
source listing in order. `child` is the recursive call for subdirectory
entries; `tacc` is the target directory content (`none` when the target
path is not a directory, so every rename into it fails); `sacc` is what
remains or is rebuilt in the source directory. -/
def mergeEntries (dry : Bool)
    (child : String → String → FsTree → TState → FsTree × TState × List RemoteOp)
    (sp tp : String) :
    List Ent → Option (List Ent) → List Ent → List RemoteOp →
      Option (List Ent) × List Ent × List RemoteOp
  | [], tacc, sacc, ops => (tacc, sacc, ops)
  | (n, k) :: rest, tacc, sacc, ops =>
    if startsWithDot n then
      mergeEntries dry child sp tp rest tacc (sacc ++ [(n, k)]) ops
    else
      match k with
      | none =>
        if dry then mergeEntries dry child sp tp rest tacc (sacc ++ [(n, none)]) ops
        else
          let mops := [RemoteOp.rename (joinP sp n) (joinP tp n)]
          match tacc with
          | some tes =>
            if n ∈ names tes then
              mergeEntries dry child sp tp rest (some tes)
                (sacc ++ [(n, none)]) (ops ++ mops)
            else
              mergeEntries dry child sp tp rest (some (tes ++ [(n, none)]))
                sacc (ops ++ mops)
          | none =>
            mergeEntries dry child sp tp rest none (sacc ++ [(n, none)]) (ops ++ mops)
      | some sd =>
        let ts : TState :=
          match tacc with
          | none => TState.file
          | some tes => tsFromLookup tes n
        let r := child (joinP sp n) (joinP tp n) sd ts
        let tacc' : Option (List Ent) :=
          match tacc, r.2.1 with
          | some tes, TState.dir td' => some (setEntry tes n td')
          | t, _ => t
        mergeEntries dry child sp tp rest tacc' (sacc ++ [(n, some r.1)]) (ops ++ r.2.2)

/-- `mergeDirectoryContents sp tp`: list the source, attempt `mkdir` on
the target (ignoring failure), then run the entry loop. Returns the new
source tree, the new target state and the trace of remote calls. -/
def mergeT (dry : Bool) :
    Nat → String → String → FsTree → TState → FsTree × TState × List RemoteOp
  | 0, _, _, src, ts => (src, ts, [])
  | fuel + 1, sp, tp, src, ts =>
    let ops0 := [RemoteOp.list (joinP sp "*"), RemoteOp.mkdir tp]
    let tacc0 : Option (List Ent) :=
      match ts with
      | .dir t => some t.entries
      | .absent => some []
      | .file => none
    let r := mergeEntries dry (mergeT dry fuel) sp tp src.entries tacc0 [] []
    (FsTree.node r.2.1,
     (match r.1 with
      | some tes => TState.dir (.node tes)
      | none => ts),
     ops0 ++ r.2.2)

/-- Well-formed directory tree: entry names are unique per directory,
recursively. -/
inductive WF : FsTree → Prop where
  | node : ∀ es, (names es).Nodup → (∀ n sd, (n, some sd) ∈ es → WF sd) →
      WF (.node es)

/-- Well-formed target state. -/
def WFT : TState → Prop
  | .dir t => WF t
  | _ => True

/-- Well-formedness of a target directory content list. -/
def AccWF (tes : List Ent) : Prop :=
  (names tes).Nodup ∧ ∀ n td, (n, some td) ∈ tes → WF td

/-- Stability of one source entry against a target content: processing
it again changes neither the entry nor the target. -/
def SEnt (fuel : Nat) (sp tp : String) (tes : List Ent) : Ent → Prop
  | (n, none) => startsWithDot n = false → n ∈ names tes
  | (n, some sd) => startsWithDot n = false →
      (mergeT false fuel (joinP sp n) (joinP tp n) sd (tsFromLookup tes n)).1 = sd ∧
      (mergeT false fuel (joinP sp n) (joinP tp n) sd (tsFromLookup tes n)).2.1 =
        tsFromLookup tes n

/-! ## Reference definition for the parser claim

The listing parser exactly as the specification words it: only the
summary line, blank lines and the entries `"."` and `".."` are
excluded. -/

/-- Parser following the specification text literally (refinement
reference, to be compared with `parseListing` from the source). -/
def parseListingClaim (raw : String) : List DirEntry :=
  (((splitNl raw).filter keepLineRen).map
    (fun line => ⟨firstTokS (trimS line), containsS line " D "⟩)).filter
    (fun e => e.name ≠ "." && e.name ≠ "..")

/-! ## Concrete example worlds -/

/-- The end-to-end example of the specification: `IMG_0001.jpg`, its
sidecar with `photoTakenTime.timestamp = 1609459200`, and
`IMG_0001-edited.jpg`; empty target, UTC local time, real run. -/
def exC1world : RWorld where
  sourceListing :=
    "  .                                   D        0  Sat May 24 2025\n" ++
    "  ..                                  D        0  Sat May 24 2025\n" ++
    "  IMG_0001.jpg                        A   123456  Fri Jan  1 2021\n" ++
    "  IMG_0001.jpg.json                   A      365  Fri Jan  1 2021\n" ++
    "  IMG_0001-edited.jpg                 A   130000  Fri Jan  1 2021\n" ++
    "\n" ++
    "  4056780 blocks of size 1024. 1000000 blocks available"
  targetListing := none
  meta := fun j => if j = "IMG_0001.jpg.json" then some ⟨some 1609459200, none⟩ else none
  trueExt := fun _ => some "jpg"
  failAt := fun _ => .noFail
  tz := 0
  dry := false

/-- A source directory holding a sidecar-less file already named like a
derived name, next to a file whose sidecar derives that same name. -/
def exC4world : RWorld where
  sourceListing :=
    "  2021-01-01_00-00-00.jpg      A   50  Fri Jan  1 2021\n" ++
    "  Foo.jpg                      A   60  Fri Jan  1 2021\n" ++
    "  Foo.jpg.json                 A   10  Fri Jan  1 2021\n" ++
    "  100 blocks of size 1024. 50 blocks available"
  targetListing := some "  2 blocks of size 1024. 2 blocks available"
  meta := fun j => if j = "Foo.jpg.json" then some ⟨some 1609459200, none⟩ else none
  trueExt := fun n => if n = "Foo.jpg" then some "jpg" else none
  failAt := fun _ => .noFail
  tz := 0
  dry := false

/-- One media file with a sidecar, used as a witness world. -/
def exC5world : RWorld where
  sourceListing :=
    "  Foo.jpg                      A   60  Fri Jan  1 2021\n" ++
    "  Foo.jpg.json                 A   10  Fri Jan  1 2021\n" ++
    "  100 blocks of size 1024. 50 blocks available"
  targetListing := some "  2 blocks of size 1024. 2 blocks available"
  meta := fun j => if j = "Foo.jpg.json" then some ⟨some 1609459200, none⟩ else none
  trueExt := fun n => if n = "Foo.jpg" then some "jpg" else none
  failAt := fun _ => .noFail
  tz := 0
  dry := false

/-- A media file whose name carries an uppercase extension while the
exiftool signature inspection reports no `FileTypeExtension`. -/
def exC6world : RWorld where
  sourceListing :=
    "  pic.JPG                      A   60  Fri Jan  1 2021\n" ++
    "  pic.JPG.json                 A   10  Fri Jan  1 2021\n" ++
    "  100 blocks of size 1024. 50 blocks available"
  targetListing := some "  2 blocks of size 1024. 2 blocks available"
  meta := fun j => if j = "pic.JPG.json" then some ⟨some 1609459200, none⟩ else none
  trueExt := fun _ => none
  failAt := fun _ => .noFail
  tz := 0
  dry := false

/-- Same world but with a signature-reported extension, for the amended
extension claim's witness. -/
def exC6world2 : RWorld where
  sourceListing :=
    "  pic.JPG                      A   60  Fri Jan  1 2021\n" ++
    "  pic.JPG.json                 A   10  Fri Jan  1 2021\n" ++
    "  100 blocks of size 1024. 50 blocks available"
  targetListing := some "  2 blocks of size 1024. 2 blocks available"
  meta := fun j => if j = "pic.JPG.json" then some ⟨some 1609459200, none⟩ else none
  trueExt := fun n => if n = "pic.JPG" then some "HEIC" else none
  failAt := fun _ => .noFail
  tz := 0
  dry := false

/-- A world in which the transfer of the only media file fails. -/
def exC7world : RWorld where
  sourceListing :=
    "  Foo.jpg                      A   60  Fri Jan  1 2021\n" ++
    "  Bar.jpg                      A   33  Fri Jan  1 2021\n" ++
    "  100 blocks of size 1024. 50 blocks available"
  targetListing := some "  2 blocks of size 1024. 2 blocks available"
  meta := fun _ => none
  trueExt := fun _ => none
  failAt := fun n => if n = "Foo.jpg" then .sendFileFails else .noFail
  tz := 0
  dry := false

/-- A listing with a hidden dot-entry next to a normal file. -/
def exRawHidden : String :=
  "  .hidden                      A   12  Mon Jan  4 2021\n" ++
  "  IMG.jpg                      A    5  Mon Jan  4 2021\n" ++
  "  100 blocks of size 1024. 50 blocks available"

/-- A small source tree and an overlapping target for the Mover witness. -/
def exMergeSrc : FsTree :=
  .node [("a.jpg", none), ("sub", some (.node [("b.jpg", none)]))]

/-- Target that already holds `a.jpg`. -/
def exMergeTgt : TState := .dir (.node [("a.jpg", none)])

/-! # Theorems -/

/-! ## Decimal rendering -/

theorem digitVal_digitChar {d : Nat} (h : d < 10) : digitVal (Nat.digitChar d) = d := by
  interval_cases d <;> rfl

theorem ofDec_append (l : List Char) (c : Char) :
    ofDec (l ++ [c]) = ofDec l * 10 + digitVal c := by
  simp [ofDec, List.foldl_append]

theorem ofDec_decDigitsAux : ∀ fuel n, n < fuel → ofDec (decDigitsAux fuel n) = n := by
  intro fuel
  induction fuel with
  | zero => intro n h; omega
  | succ fuel ih =>
    intro n h
    by_cases h10 : n < 10
    · simp [decDigitsAux, h10, ofDec, digitVal_digitChar h10]
    · have hdiv : n / 10 < fuel := by
        have h1 : n / 10 < n := Nat.div_lt_self (by omega) (by omega)
        omega
      simp only [decDigitsAux, if_neg h10]
      rw [ofDec_append, ih _ hdiv, digitVal_digitChar (Nat.mod_lt _ (by omega))]
      omega

theorem ofDec_natToDec (n : Nat) : ofDec (natToDec n).data = n :=
  ofDec_decDigitsAux (n + 1) n (Nat.lt_succ_self n)

theorem natToDec_injective : Function.Injective natToDec := by
  intro m n h
  have h2 : ofDec (natToDec m).data = ofDec (natToDec n).data := by rw [h]
  rwa [ofDec_natToDec, ofDec_natToDec] at h2

/-! ## First-token lemmas -/

theorem firstTok_cons {l : List Char} {c : Char} {r : List Char}
    (h : firstTok l = c :: r) : ∃ l', l = c :: l' := by
  match l with
  | [] => simp [firstTok] at h
  | [a] =>
    simp only [firstTok, List.cons.injEq] at h
    exact ⟨[], by rw [h.1]⟩
  | a :: b :: rest =>
    rw [firstTok] at h
    split at h
    · exact absurd h (by simp)
    · exact ⟨b :: rest, by rw [(List.cons.injEq ..).mp h |>.1]⟩

/-- If a kept line's trimmed form does not start with a dot, neither does
its first token. -/
theorem startsWithDot_firstTokS {t : String} (h : startsWithDot t = false) :
    startsWithDot (firstTokS t) = false := by
  unfold firstTokS
  rcases hd : firstTok t.data with _ | ⟨c, r⟩
  · rfl
  · obtain ⟨l', hl⟩ := firstTok_cons hd
    unfold startsWithDot at h ⊢
    simp only [hd]
    rw [hl] at h
    simpa using h

/-! ## C1: the end-to-end example -/

set_option maxRecDepth 100000 in
/-- C1, counterexample. In the specification's end-to-end example run the
single produced file keeps its original name `IMG_0001-edited.jpg`: the
sidecar lookup (`f.startsWith(entryName)`) finds no JSON for the edited
variant, so the claimed output name `2021-01-01_00-00-00-edited.jpg` is
not produced. -/
theorem c1_counterexample :
    placedNames (processDirectory exC1world "src" "tgt").results =
      ["IMG_0001-edited.jpg"] ∧
    "2021-01-01_00-00-00-edited.jpg" ∉
      placedNames (processDirectory exC1world "src" "tgt").results := by
  constructor
  · decide
  · decide

set_option maxRecDepth 100000 in
/-- C1, amended. On the example source directory the Renamer produces
exactly one file, derived from `IMG_0001-edited.jpg`, but copied unchanged
under its original name with no embedded capture-time write (the trace
holds no `exifWrite`); `IMG_0001.jpg` (superseded original) and the `.json`
sidecar produce no output file. -/
theorem c1_amended_run :
    (processDirectory exC1world "src" "tgt").results =
      [(".", .skippedDotDir), ("..", .skippedDotDir),
       ("IMG_0001.jpg", .skippedOriginal "IMG_0001.jpg"),
       ("IMG_0001.jpg.json", .skippedJson "IMG_0001.jpg.json"),
       ("IMG_0001-edited.jpg", .placedAsIs "IMG_0001-edited.jpg")] ∧
    (processDirectory exC1world "src" "tgt").ops =
      [.list "tgt/*", .mkdir "tgt", .list "src/*",
       .download "src/IMG_0001-edited.jpg" "/tmp/IMG_0001-edited.jpg",
       .upload "/tmp/IMG_0001-edited.jpg" "tgt/IMG_0001-edited.jpg",
       .removeTemp "/tmp/IMG_0001-edited.jpg"] := by
  constructor
  · decide
  · decide

/-! ## C2: dry-run behaviour -/

set_option maxRecDepth 100000 in
/-- C2, counterexample. A dry run of the Mover on an absent target still
executes the mutating `smbClient.mkdir`: the trace contains the `mkdir`
call and the target directory is actually created. -/
theorem c2_counterexample :
    RemoteOp.mkdir "t" ∈
      (mergeT true 1 "s" "t" (.node [("a.jpg", none)]) .absent).2.2 ∧
    (mergeT true 1 "s" "t" (.node [("a.jpg", none)]) .absent).2.1 =
      TState.dir (.node []) := by
  exact ⟨by decide, rfl⟩

/-! ## C3: the listing parser -/

set_option maxRecDepth 100000 in
/-- C3, counterexample. On a listing with a hidden `.hidden` entry the
parser of `mergeDirectoryContents` drops the dot-prefixed line entirely,
while the claim ("only the summary line, blank lines, `.` and `..` are
excluded; every remaining line yields an entry") demands an entry for
it. -/
theorem c3_counterexample :
    parseListing exRawHidden = [⟨"IMG.jpg", false⟩] ∧
    parseListingClaim exRawHidden = [⟨".hidden", false⟩, ⟨"IMG.jpg", false⟩] ∧
    parseListing exRawHidden ≠ parseListingClaim exRawHidden := by
  refine ⟨by decide, by decide, by decide⟩

/-! ## Parser membership helpers -/

theorem parseListing_mem_iff (raw : String) (e : DirEntry) :
    e ∈ parseListing raw ↔
      ∃ line, line ∈ splitNl raw ∧ trimS line ≠ "" ∧
        containsS (trimS line) "blocks of size" = false ∧
        startsWithDot (trimS line) = false ∧
        e = ⟨firstTokS (trimS line), containsS line " D "⟩ := by
  simp only [parseListing, List.mem_map, List.mem_filter, keepLineMerge]
  constructor
  · rintro ⟨line, ⟨hmem, hkeep⟩, rfl⟩
    simp only [Bool.and_eq_true, Bool.not_eq_true', decide_eq_true_eq, ne_eq] at hkeep
    exact ⟨line, hmem, hkeep.1.1, hkeep.1.2, hkeep.2, rfl⟩
  · rintro ⟨line, hmem, h1, h2, h3, rfl⟩
    exact ⟨line, ⟨hmem, by simp [h1, h2, h3]⟩, rfl⟩

theorem parseListing_no_dot (raw : String) (e : DirEntry) (he : e ∈ parseListing raw) :
    startsWithDot e.name = false := by
  obtain ⟨line, _, _, _, h3, rfl⟩ := (parseListing_mem_iff raw e).mp he
  exact startsWithDot_firstTokS h3

theorem name_ne_dot {nm : String} (h : startsWithDot nm = false) :
    nm ≠ "." ∧ nm ≠ ".." := by
  constructor
  · intro heq; rw [heq] at h; exact absurd h (by decide)
  · intro heq; rw [heq] at h; exact absurd h (by decide)

/-! ## String append helpers -/

theorem strAssoc (a b c : String) : (a ++ b) ++ c = a ++ (b ++ c) :=
  String.ext (by simp)

/-! ## Collision-candidate lemmas -/

theorem cand_injective (fbase ext : String) : Function.Injective (cand fbase ext) := by
  intro a b h
  match a, b with
  | 0, 0 => rfl
  | 0, k + 1 =>
    exfalso
    have hd := congrArg String.data h
    simp [cand, String.data_append] at hd
  | k + 1, 0 =>
    exfalso
    have hd := congrArg String.data h
    simp [cand, String.data_append] at hd
  | k + 1, j + 1 =>
    have hd := congrArg String.data h
    simp only [cand, String.data_append, List.append_assoc] at hd
    have h2 := List.append_cancel_left hd
    simp only [List.cons_append, List.nil_append, List.cons.injEq, true_and] at h2
    have h3 := List.append_cancel_right h2
    have h4 : natToDec (k + 1) = natToDec (j + 1) := String.ext h3
    have h5 := natToDec_injective h4
    omega

theorem findFreeAux_not_mem (taken : List String) (fbase ext : String) :
    ∀ fuel i, (∃ k, k < fuel ∧ cand fbase ext (i + k) ∉ taken) →
      findFreeAux taken fbase ext fuel i ∉ taken := by
  intro fuel
  induction fuel with
  | zero => intro i ⟨k, hk, _⟩; omega
  | succ fuel ih =>
    intro i ⟨k, hk, hfree⟩
    rw [findFreeAux]
    split
    next hmem =>
      apply ih (i + 1)
      match k with
      | 0 => exact absurd hmem (by simpa using hfree)
      | k' + 1 =>
        exact ⟨k', by omega, by rw [show i + 1 + k' = i + (k' + 1) by omega]; exact hfree⟩
    next hmem => exact hmem

theorem exists_free_cand (taken : List String) (fbase ext : String) :
    ∃ k, k < taken.length + 1 ∧ cand fbase ext (0 + k) ∉ taken := by
  by_contra hcon
  push_neg at hcon
  have hinj : Function.Injective (fun k => cand fbase ext (0 + k)) := by
    intro a b hab
    have h2 := cand_injective fbase ext hab
    omega
  have hnd : ((List.range (taken.length + 1)).map
      (fun k => cand fbase ext (0 + k))).Nodup :=
    (List.nodup_range _).map hinj
  have hsub : ((List.range (taken.length + 1)).map
      (fun k => cand fbase ext (0 + k))) ⊆ taken := by
    intro x hx
    simp only [List.mem_map, List.mem_range] at hx
    obtain ⟨k, hk, rfl⟩ := hx
    exact hcon k hk
  have hle := (List.subperm_of_subset hnd hsub).length_le
  simp at hle

/-- The collision search never returns a name already in the known set:
the candidates are pairwise distinct, so within `taken.length + 1` tries
a free one is found. -/
theorem findFree_not_mem (fbase ext : String) (taken : List String) :
    findFree fbase ext taken ∉ taken :=
  findFreeAux_not_mem taken fbase ext (taken.length + 1) 0 (exists_free_cand taken fbase ext)

theorem findFreeAux_eq_cand (taken : List String) (fbase ext : String) :
    ∀ fuel i, ∃ k, findFreeAux taken fbase ext fuel i = cand fbase ext k := by
  intro fuel
  induction fuel with
  | zero => intro i; exact ⟨i, rfl⟩
  | succ fuel ih =>
    intro i
    rw [findFreeAux]
    split
    · exact ih (i + 1)
    · exact ⟨i, rfl⟩

theorem cand_base_prefix (fbase ext : String) (k : Nat) :
    ∃ rest, cand fbase ext k = fbase ++ rest := by
  match k with
  | 0 => exact ⟨"." ++ ext, by rw [cand, strAssoc]⟩
  | j + 1 =>
    refine ⟨"(" ++ natToDec (j + 1) ++ ")." ++ ext, ?_⟩
    rw [cand]
    apply String.ext
    simp [String.data_append]

theorem cand_ext_suffix (fbase ext : String) (k : Nat) :
    ∃ pre, cand fbase ext k = pre ++ ("." ++ ext) := by
  match k with
  | 0 => exact ⟨fbase, by rw [cand, strAssoc]⟩
  | j + 1 =>
    refine ⟨fbase ++ "(" ++ natToDec (j + 1) ++ ")", ?_⟩
    rw [cand]
    apply String.ext
    simp [String.data_append]

theorem findFree_base_prefix (fbase ext : String) (taken : List String) :
    ∃ rest, findFree fbase ext taken = fbase ++ rest := by
  obtain ⟨k, hk⟩ := findFreeAux_eq_cand taken fbase ext (taken.length + 1) 0
  rw [findFree, hk]
  exact cand_base_prefix fbase ext k

theorem findFree_ext_suffix (fbase ext : String) (taken : List String) :
    ∃ pre, findFree fbase ext taken = pre ++ ("." ++ ext) := by
  obtain ⟨k, hk⟩ := findFreeAux_eq_cand taken fbase ext (taken.length + 1) 0
  rw [findFree, hk]
  exact cand_ext_suffix fbase ext k

/-! ## Per-entry case analysis of the Renamer loop body -/

theorem renamePhase_cases (w : RWorld) (td tmp name : String) (ex : List String)
    (ts : Nat) (opsPre : List RemoteOp) :
    ((∀ fn x, (renamePhase w td tmp name ex ts opsPre).1 ≠ .placedRenamed fn x) ∧
      (renamePhase w td tmp name ex ts opsPre).2.1 = ex) ∨
    (∃ fn x, (renamePhase w td tmp name ex ts opsPre).1 = .placedRenamed fn x ∧
      fn ∉ ex ∧ (renamePhase w td tmp name ex ts opsPre).2.1 = ex ++ [fn]) := by
  unfold renamePhase
  dsimp only
  repeat' split
  all_goals first
    | (left; exact ⟨by intro fn x h; simp at h, rfl⟩)
    | (right; exact ⟨_, _, rfl, by assumption, rfl⟩)

theorem sidecarPhase_cases (w : RWorld) (sd td tmp name : String) (ex : List String)
    (j : String) (ops0 : List RemoteOp) :
    ((∀ fn x, (sidecarPhase w sd td tmp name ex j ops0).1 ≠ .placedRenamed fn x) ∧
      (sidecarPhase w sd td tmp name ex j ops0).2.1 = ex) ∨
    (∃ fn x, (sidecarPhase w sd td tmp name ex j ops0).1 = .placedRenamed fn x ∧
      fn ∉ ex ∧ (sidecarPhase w sd td tmp name ex j ops0).2.1 = ex ++ [fn]) := by
  unfold sidecarPhase
  dsimp only
  repeat' split
  all_goals first
    | (left; exact ⟨by intro fn x h; simp at h, rfl⟩)
    | (apply renamePhase_cases)

theorem noSidecarPhase_cases (w : RWorld) (td tmp name : String) (ex : List String)
    (ops0 : List RemoteOp) :
    (∀ fn x, (noSidecarPhase w td tmp name ex ops0).1 ≠ .placedRenamed fn x) ∧
      (noSidecarPhase w td tmp name ex ops0).2.1 = ex := by
  unfold noSidecarPhase
  repeat' split
  all_goals exact ⟨by intro fn x h; simp at h, rfl⟩

theorem filePhase_cases (w : RWorld) (sd td : String) (fns ex : List String)
    (name : String) :
    ((∀ fn x, (filePhase w sd td fns ex name).1 ≠ .placedRenamed fn x) ∧
      (filePhase w sd td fns ex name).2.1 = ex) ∨
    (∃ fn x, (filePhase w sd td fns ex name).1 = .placedRenamed fn x ∧
      fn ∉ ex ∧ (filePhase w sd td fns ex name).2.1 = ex ++ [fn]) := by
  unfold filePhase
  dsimp only
  repeat' split
  all_goals first
    | (left; exact ⟨by intro fn x h; simp at h, rfl⟩)
    | (exact Or.inl (noSidecarPhase_cases ..))
    | (apply sidecarPhase_cases)

theorem processEntry_cases (w : RWorld) (sd td : String) (fns ex : List String)
    (e : String × Bool) :
    ((∀ fn x, (processEntry w sd td fns ex e).1 ≠ .placedRenamed fn x) ∧
      (processEntry w sd td fns ex e).2.1 = ex) ∨
    (∃ fn x, (processEntry w sd td fns ex e).1 = .placedRenamed fn x ∧
      fn ∉ ex ∧ (processEntry w sd td fns ex e).2.1 = ex ++ [fn]) := by
  unfold processEntry
  dsimp only
  repeat' split
  all_goals first
    | (left; exact ⟨by intro fn x h; simp at h, rfl⟩)
    | (apply filePhase_cases)

/-! ## The defensive collision check is unreachable -/

theorem renamePhase_no_collide (w : RWorld) (td tmp name : String) (ex : List String)
    (ts : Nat) (opsPre : List RemoteOp) (n' : String) :
    (renamePhase w td tmp name ex ts opsPre).1 ≠ .skippedStillColliding n' := by
  unfold renamePhase
  dsimp only
  split
  · intro h; simp at h
  · split
    next hmem => exact absurd hmem (findFree_not_mem _ _ _)
    next =>
      split
      · intro h; simp at h
      · split
        · intro h; simp at h
        · split
          · intro h; simp at h
          · intro h; simp at h

theorem sidecarPhase_no_collide (w : RWorld) (sd td tmp name : String)
    (ex : List String) (j : String) (ops0 : List RemoteOp) (n' : String) :
    (sidecarPhase w sd td tmp name ex j ops0).1 ≠ .skippedStillColliding n' := by
  unfold sidecarPhase
  dsimp only
  repeat' split
  all_goals first
    | (apply renamePhase_no_collide)
    | (intro h; simp at h)

theorem noSidecarPhase_no_collide (w : RWorld) (td tmp name : String)
    (ex : List String) (ops0 : List RemoteOp) (n' : String) :
    (noSidecarPhase w td tmp name ex ops0).1 ≠ .skippedStillColliding n' := by
  unfold noSidecarPhase
  repeat' split
  all_goals intro h; simp at h

theorem filePhase_no_collide (w : RWorld) (sd td : String) (fns ex : List String)
    (name : String) (n' : String) :
    (filePhase w sd td fns ex name).1 ≠ .skippedStillColliding n' := by
  unfold filePhase
  dsimp only
  repeat' split
  all_goals first
    | (apply noSidecarPhase_no_collide)
    | (apply sidecarPhase_no_collide)
    | (intro h; simp at h)

theorem processEntry_no_collide (w : RWorld) (sd td : String) (fns ex : List String)
    (e : String × Bool) (n' : String) :
    (processEntry w sd td fns ex e).1 ≠ .skippedStillColliding n' := by
  unfold processEntry
  dsimp only
  repeat' split
  all_goals first
    | (apply filePhase_no_collide)
    | (intro h; simp at h)

/-! ## Staging-copy cleanup -/

theorem renamePhase_cleanup (w : RWorld) (td tmp name : String) (ex : List String)
    (ts : Nat) (opsPre : List RemoteOp) :
    ((renamePhase w td tmp name ex ts opsPre).2.2).getLast? =
      some (.removeTemp tmp) := by
  unfold renamePhase
  dsimp only
  repeat' split
  all_goals simp

theorem sidecarPhase_cleanup (w : RWorld) (sd td tmp name : String)
    (ex : List String) (j : String) (ops0 : List RemoteOp) :
    ((sidecarPhase w sd td tmp name ex j ops0).2.2).getLast? =
      some (.removeTemp tmp) := by
  unfold sidecarPhase
  dsimp only
  repeat' split
  all_goals first
    | (apply renamePhase_cleanup)
    | simp

theorem noSidecarPhase_cleanup (w : RWorld) (td tmp name : String)
    (ex : List String) (ops0 : List RemoteOp) :
    ((noSidecarPhase w td tmp name ex ops0).2.2).getLast? =
      some (.removeTemp tmp) := by
  unfold noSidecarPhase
  repeat' split
  all_goals simp

theorem filePhase_cleanup (w : RWorld) (sd td : String) (fns ex : List String)
    (name : String) :
    ((filePhase w sd td fns ex name).2.2).getLast? =
      some (.removeTemp (tmpP name)) := by
  unfold filePhase
  dsimp only
  repeat' split
  all_goals first
    | (apply noSidecarPhase_cleanup)
    | (apply sidecarPhase_cleanup)
    | simp

theorem processEntry_cleanup (w : RWorld) (sd td : String) (fns ex : List String)
    (e : String × Bool) :
    (processEntry w sd td fns ex e).2.2 = [] ∨
    ((processEntry w sd td fns ex e).2.2).getLast? =
      some (.removeTemp (tmpP e.1)) := by
  unfold processEntry
  dsimp only
  repeat' split
  all_goals first
    | (left; rfl)
    | (right; apply filePhase_cleanup)

/-! ## Dry-run traces of the Renamer -/

theorem renamePhase_dry_benign (w : RWorld) (td tmp name : String) (ex : List String)
    (ts : Nat) (opsPre : List RemoteOp) (hdry : w.dry = true)
    (hpre : ∀ o ∈ opsPre, nonMutating o = true) :
    ∀ o ∈ (renamePhase w td tmp name ex ts opsPre).2.2, nonMutating o = true := by
  unfold renamePhase
  dsimp only
  repeat' split
  all_goals intro o ho
  all_goals first
    | exact absurd hdry (by assumption)
    | (simp only [List.append_assoc, List.mem_append, List.mem_cons,
         List.not_mem_nil, or_false] at ho
       rcases ho with ho | rfl | rfl <;> first | exact hpre o ho | rfl)

theorem sidecarPhase_dry_benign (w : RWorld) (sd td tmp name : String)
    (ex : List String) (j : String) (ops0 : List RemoteOp) (hdry : w.dry = true)
    (hpre : ∀ o ∈ ops0, nonMutating o = true) :
    ∀ o ∈ (sidecarPhase w sd td tmp name ex j ops0).2.2, nonMutating o = true := by
  unfold sidecarPhase
  dsimp only
  repeat' split
  all_goals first
    | (apply renamePhase_dry_benign _ _ _ _ _ _ _ hdry
        (fun o ho => by
          simp only [List.append_assoc, List.mem_append, List.mem_cons,
            List.not_mem_nil, or_false] at ho
          rcases ho with ho | rfl | rfl <;> first | exact hpre o ho | rfl))
    | (intro o ho
       simp only [List.append_assoc, List.mem_append, List.mem_cons,
         List.not_mem_nil, or_false] at ho
       rcases ho with ho | rfl | rfl | rfl <;> first | exact hpre o ho | rfl)

theorem noSidecarPhase_dry_benign (w : RWorld) (td tmp name : String)
    (ex : List String) (ops0 : List RemoteOp) (hdry : w.dry = true)
    (hpre : ∀ o ∈ ops0, nonMutating o = true) :
    ∀ o ∈ (noSidecarPhase w td tmp name ex ops0).2.2, nonMutating o = true := by
  unfold noSidecarPhase
  repeat' split
  all_goals first
    | exact absurd hdry (by assumption)
    | (intro o ho
       simp only [List.append_assoc, List.mem_append, List.mem_cons,
         List.not_mem_nil, or_false] at ho
       rcases ho with ho | rfl <;> first | exact hpre o ho | rfl)

theorem filePhase_dry_benign (w : RWorld) (sd td : String) (fns ex : List String)
    (name : String) (hdry : w.dry = true) :
    ∀ o ∈ (filePhase w sd td fns ex name).2.2, nonMutating o = true := by
  unfold filePhase
  dsimp only
  have h0 : ∀ o ∈ [RemoteOp.download (joinP sd name) (tmpP name)],
      nonMutating o = true := by
    intro o ho
    simp only [List.mem_cons, List.not_mem_nil, or_false] at ho
    subst ho; rfl
  repeat' split
  all_goals first
    | (apply noSidecarPhase_dry_benign _ _ _ _ _ _ hdry h0)
    | (apply sidecarPhase_dry_benign _ _ _ _ _ _ _ _ hdry h0)
    | (intro o ho
       simp only [List.append_assoc, List.mem_append, List.mem_cons,
         List.not_mem_nil, or_false] at ho
       rcases ho with rfl | rfl <;> rfl)

theorem processEntry_dry_benign (w : RWorld) (sd td : String) (fns ex : List String)
    (e : String × Bool) (hdry : w.dry = true) :
    ∀ o ∈ (processEntry w sd td fns ex e).2.2, nonMutating o = true := by
  unfold processEntry
  dsimp only
  repeat' split
  all_goals first
    | (apply filePhase_dry_benign _ _ _ _ _ _ hdry)
    | (intro o ho; simp at ho)

/-! ## Mover entry-loop lemmas -/

theorem mergeEntries_sacc_mono (dry : Bool)
    (child : String → String → FsTree → TState → FsTree × TState × List RemoteOp)
    (sp tp : String) :
    ∀ rem tacc sacc ops x, x ∈ sacc →
      x ∈ (mergeEntries dry child sp tp rem tacc sacc ops).2.1 := by
  intro rem
  induction rem with
  | nil => intro tacc sacc ops x hx; simpa [mergeEntries] using hx
  | cons e rest ih =>
    intro tacc sacc ops x hx
    obtain ⟨n, k⟩ := e
    rw [mergeEntries.eq_def]
    dsimp only
    repeat' split
    all_goals exact ih _ _ _ _ (by simp [hx])

theorem mergeEntries_keeps_dots (dry : Bool)
    (child : String → String → FsTree → TState → FsTree × TState × List RemoteOp)
    (sp tp : String) :
    ∀ rem tacc sacc ops n k, (n, k) ∈ rem → startsWithDot n = true →
      (n, k) ∈ (mergeEntries dry child sp tp rem tacc sacc ops).2.1 := by
  intro rem
  induction rem with
  | nil => intro tacc sacc ops n k hmem; simp at hmem
  | cons e rest ih =>
    intro tacc sacc ops n k hmem hdot
    rcases List.mem_cons.mp hmem with heq | htail
    · subst heq
      rw [mergeEntries.eq_def]
      dsimp only
      rw [if_pos hdot]
      exact mergeEntries_sacc_mono dry child sp tp rest tacc _ ops (n, k) (by simp)
    · obtain ⟨m, v⟩ := e
      rw [mergeEntries.eq_def]
      dsimp only
      repeat' split
      all_goals exact ih _ _ _ _ _ htail hdot

theorem mergeEntries_dry_no_mutation
    (child : String → String → FsTree → TState → FsTree × TState × List RemoteOp)
    (sp tp : String)
    (hchild : ∀ cp cq csd cts o, o ∈ (child cp cq csd cts).2.2 →
      isFileMutation o = false) :
    ∀ rem tacc sacc ops, (∀ o ∈ ops, isFileMutation o = false) →
      ∀ o ∈ (mergeEntries true child sp tp rem tacc sacc ops).2.2,
        isFileMutation o = false := by
  intro rem
  induction rem with
  | nil =>
    intro tacc sacc ops hops o ho
    exact hops o (by simpa [mergeEntries] using ho)
  | cons e rest ih =>
    intro tacc sacc ops hops o ho
    obtain ⟨n, k⟩ := e
    rw [mergeEntries.eq_def] at ho
    simp only [reduceIte] at ho
    revert ho
    repeat' split
    all_goals intro ho
    all_goals refine ih _ _ _ ?_ o ho
    all_goals intro o2 ho2
    all_goals first
      | exact hops o2 ho2
      | (rcases List.mem_append.mp ho2 with h2 | h2
         · exact hops o2 h2
         · exact hchild _ _ _ _ o2 h2)

theorem mergeT_dry_no_mutation : ∀ fuel sp tp src ts o,
    o ∈ (mergeT true fuel sp tp src ts).2.2 → isFileMutation o = false := by
  intro fuel
  induction fuel with
  | zero => intro sp tp src ts o ho; simp [mergeT] at ho
  | succ fuel ih =>
    intro sp tp src ts o ho
    rw [mergeT.eq_def] at ho
    dsimp only at ho
    rcases List.mem_append.mp ho with h | h
    · simp only [List.mem_cons, List.not_mem_nil, or_false] at h
      rcases h with rfl | rfl <;> rfl
    · exact mergeEntries_dry_no_mutation (mergeT true fuel) sp tp
        (fun cp cq csd cts o2 ho2 => ih cp cq csd cts o2 ho2)
        src.entries _ [] [] (by intro o2 ho2; simp at ho2) o h

/-! ## Renamer loop lemmas -/

theorem foldl_processStep_length (w : RWorld) (sd td : String) (fns : List String) :
    ∀ (entries : List (String × Bool)) acc,
      ((entries.foldl (processStep w sd td fns) acc).1).length =
        acc.1.length + entries.length := by
  intro entries
  induction entries with
  | nil => intro acc; simp
  | cons e rest ih =>
    intro acc
    rw [List.foldl_cons, ih]
    simp [processStep]
    omega

theorem renamedNames_append (l1 l2 : List (String × FileOutcome)) :
    renamedNames (l1 ++ l2) = renamedNames l1 ++ renamedNames l2 := by
  simp [renamedNames, List.filterMap_append]

theorem renamedNames_single_nil (n : String) (o : FileOutcome)
    (h : ∀ fn x, o ≠ .placedRenamed fn x) : renamedNames [(n, o)] = [] := by
  cases o <;> simp [renamedNames]
  exact absurd rfl (h _ _)

theorem renamedNames_single_renamed (n fn x : String) :
    renamedNames [(n, .placedRenamed fn x)] = [fn] := by
  simp [renamedNames]

theorem foldl_processStep_renamed (w : RWorld) (sd td : String) (fns : List String) :
    ∀ (entries : List (String × Bool)) res ex ops,
      (renamedNames res).Nodup → (∀ x ∈ renamedNames res, x ∈ ex) →
      (renamedNames ((entries.foldl (processStep w sd td fns) (res, ex, ops)).1)).Nodup ∧
      (∀ x ∈ renamedNames ((entries.foldl (processStep w sd td fns) (res, ex, ops)).1),
        x ∈ (entries.foldl (processStep w sd td fns) (res, ex, ops)).2.1) := by
  intro entries
  induction entries with
  | nil => intro res ex ops h1 h2; exact ⟨h1, h2⟩
  | cons e rest ih =>
    intro res ex ops h1 h2
    rw [List.foldl_cons]
    rcases processEntry_cases w sd td fns ex e with ⟨hno, hex⟩ | ⟨fn, x, hout, hnotin, hex⟩
    · have hstep : processStep w sd td fns (res, ex, ops) e =
        (res ++ [(e.1, (processEntry w sd td fns ex e).1)], ex,
          ops ++ (processEntry w sd td fns ex e).2.2) := by
        simp [processStep, hex]
      rw [hstep]
      apply ih
      · rw [renamedNames_append, renamedNames_single_nil _ _ hno]
        simpa using h1
      · intro y hy
        rw [renamedNames_append, renamedNames_single_nil _ _ hno] at hy
        exact h2 y (by simpa using hy)
    · have hstep : processStep w sd td fns (res, ex, ops) e =
        (res ++ [(e.1, .placedRenamed fn x)], ex ++ [fn],
          ops ++ (processEntry w sd td fns ex e).2.2) := by
        simp [processStep, hex, hout]
      rw [hstep]
      apply ih
      · rw [renamedNames_append, renamedNames_single_renamed]
        apply List.Nodup.append h1 (by simp)
        intro a ha hb
        simp at hb
        subst hb
        exact hnotin (h2 a ha)
      · intro y hy
        rw [renamedNames_append, renamedNames_single_renamed] at hy
        rcases List.mem_append.mp hy with hy | hy
        · exact List.mem_append_left _ (h2 y hy)
        · simp at hy; subst hy; simp

theorem foldl_processStep_dry (w : RWorld) (sd td : String) (fns : List String)
    (hdry : w.dry = true) :
    ∀ (entries : List (String × Bool)) res ex ops,
      (∀ o ∈ ops, nonMutating o = true) →
      ∀ o ∈ (entries.foldl (processStep w sd td fns) (res, ex, ops)).2.2,
        nonMutating o = true := by
  intro entries
  induction entries with
  | nil => intro res ex ops hops o ho; exact hops o ho
  | cons e rest ih =>
    intro res ex ops hops o ho
    rw [List.foldl_cons] at ho
    refine ih _ _ _ ?_ o ho
    intro o2 ho2
    rcases List.mem_append.mp ho2 with h2 | h2
    · exact hops o2 h2
    · exact processEntry_dry_benign w sd td fns ex e hdry o2 h2

/-! ## C2, C3 amended, C4–C7, C9, C10 claim theorems -/

theorem initTarget_dry_benign (w : RWorld) (tgtDir : String) (hdry : w.dry = true) :
    ∀ o ∈ (initTarget w tgtDir).2, nonMutating o = true := by
  intro o ho
  unfold initTarget at ho
  rcases htl : w.targetListing with _ | raw
  all_goals rw [htl] at ho
  all_goals simp only [hdry] at ho
  all_goals simp at ho
  all_goals subst ho
  all_goals rfl

/-- C2, amended. With the dry-run flag set, no file move/rename, upload
or tag write is executed by the Mover, and the Renamer executes only
non-mutating calls (listing, staging downloads, tag reads, temp cleanup)
— in particular no upload, tag write or directory creation. (Directory
creation by the Mover is still executed in dry runs, see the
counterexample.) -/
theorem c2_amended_dry_run :
    (∀ fuel : Nat, ∀ sp tp : String, ∀ src : FsTree, ∀ ts : TState, ∀ o : RemoteOp,
      o ∈ (mergeT true fuel sp tp src ts).2.2 → isFileMutation o = false) ∧
    (∀ w : RWorld, ∀ sd td : String, w.dry = true →
      ∀ o ∈ (processDirectory w sd td).ops, nonMutating o = true) := by
  constructor
  · exact fun fuel sp tp src ts o ho => mergeT_dry_no_mutation fuel sp tp src ts o ho
  · intro w sd td hdry o ho
    unfold processDirectory at ho
    dsimp only at ho
    refine foldl_processStep_dry w sd td _ hdry _ _ _ _ ?_ o ho
    intro o2 ho2
    rcases List.mem_append.mp ho2 with h2 | h2
    · exact initTarget_dry_benign w td hdry o2 h2
    · simp only [List.mem_cons, List.not_mem_nil, or_false] at h2
      subst h2
      rfl

set_option maxRecDepth 100000 in
/-- C2, witness for the amended theorem: a concrete dry Mover run
attempts no rename, and a concrete dry Renamer run's trace is fully
non-mutating. -/
theorem c2_amended_dry_run_witness :
    isFileMutation (RemoteOp.list "s/*") = false ∧
    nonMutating (RemoteOp.list "tgt/*") = true := by
  constructor
  · exact c2_amended_dry_run.1 1 "s" "t" (.node [("a.jpg", none)]) .absent
      (RemoteOp.list "s/*") (by decide)
  · exact c2_amended_dry_run.2 { exC1world with dry := true } "src" "tgt" rfl
      (RemoteOp.list "tgt/*") (by decide)

/-- C3, amended. The parser excludes the summary line, blank lines, and
every line whose trimmed form starts with a dot (hence in particular `.`
and `..`); every remaining line yields exactly one entry whose name is
the first token of the trimmed line split on runs of two or more spaces,
and which is a directory iff the raw line contains `" D "`. -/
theorem c3_amended_listing (raw : String) :
    (∀ e : DirEntry, e ∈ parseListing raw ↔
      ∃ line, line ∈ splitNl raw ∧ trimS line ≠ "" ∧
        containsS (trimS line) "blocks of size" = false ∧
        startsWithDot (trimS line) = false ∧
        e = ⟨firstTokS (trimS line), containsS line " D "⟩) ∧
    (∀ e ∈ parseListing raw,
      startsWithDot e.name = false ∧ e.name ≠ "." ∧ e.name ≠ "..") := by
  refine ⟨parseListing_mem_iff raw, ?_⟩
  intro e he
  have hd := parseListing_no_dot raw e he
  exact ⟨hd, name_ne_dot hd⟩

set_option maxRecDepth 100000 in
/-- C3, witness for the amended characterization at a concrete listing. -/
theorem c3_amended_listing_witness :
    DirEntry.mk "IMG.jpg" false ∈ parseListing exRawHidden ∧
    startsWithDot (DirEntry.mk "IMG.jpg" false).name = false := by
  have h := c3_amended_listing exRawHidden
  have hmem := (h.1 ⟨"IMG.jpg", false⟩).mpr
    ⟨"  IMG.jpg                      A    5  Mon Jan  4 2021",
      by decide, by decide, by decide, by decide, by decide⟩
  exact ⟨hmem, (h.2 _ hmem).1⟩

set_option maxRecDepth 100000 in
/-- C4, counterexample. Within one pass over one source directory the
Renamer places two files under the same final name: a sidecar-less file
named like a derived name is copied as-is without being registered in
the known-name set, and a later file derives that very name. -/
theorem c4_counterexample :
    placedNames (processDirectory exC4world "src" "tgt").results =
      ["2021-01-01_00-00-00.jpg", "2021-01-01_00-00-00.jpg"] ∧
    ¬ (placedNames (processDirectory exC4world "src" "tgt").results).Nodup := by
  exact ⟨by decide, by decide⟩

/-- C4, amended. Within one target directory during one Renamer pass, no
two files placed through the derived-name path get the same final name:
suffixes `(1)`, `(2)`, … are tried in increasing order until a free name
is found and every placed derived name is registered in the known-name
set. (Files copied as-is under their original names are checked against
the set but never registered, so an as-is placement can collide with a
later derived name — see the counterexample.) -/
theorem c4_amended_renamed_unique (w : RWorld) (sd td : String) :
    (renamedNames (processDirectory w sd td).results).Nodup ∧
    (∀ x ∈ renamedNames (processDirectory w sd td).results,
      x ∈ (processDirectory w sd td).finalExisting) := by
  unfold processDirectory
  dsimp only
  exact foldl_processStep_renamed w sd td _ _ _ _ _
    (by simp [renamedNames]) (by simp [renamedNames])

set_option maxRecDepth 100000 in
/-- C4, witness for the amended theorem at a concrete run. -/
theorem c4_amended_renamed_unique_witness :
    "2021-01-01_00-00-00.jpg" ∈ (processDirectory exC5world "src" "tgt").finalExisting :=
  (c4_amended_renamed_unique exC5world "src" "tgt").2 "2021-01-01_00-00-00.jpg" (by decide)

/-! ## Shapes of a derived-name placement -/

theorem renamePhase_renamed_shape (w : RWorld) (td tmp name : String)
    (ex : List String) (ts : Nat) (opsPre : List RemoteOp) (fn exifStr : String)
    (hout : (renamePhase w td tmp name ex ts opsPre).1 = .placedRenamed fn exifStr) :
    exifStr = formatExifDate (dateFromEpoch w.tz ts) ∧
    fn = findFree (derivedBase w name ts) (resolveExt w name) ex := by
  unfold renamePhase at hout
  dsimp only at hout
  revert hout
  repeat' split
  all_goals intro hout
  all_goals first
    | (simp only [FileOutcome.placedRenamed.injEq] at hout
       exact ⟨hout.2.symm, hout.1.symm⟩)
    | (exfalso; simp at hout)

theorem sidecarPhase_renamed_shape (w : RWorld) (sd td tmp name : String)
    (ex : List String) (j : String) (ops0 : List RemoteOp)
    (md : SidecarMeta) (T : Nat) (fn exifStr : String)
    (hmeta : w.meta j = some md) (hts : md.photoTakenTs = some T)
    (hout : (sidecarPhase w sd td tmp name ex j ops0).1 = .placedRenamed fn exifStr) :
    exifStr = formatExifDate (dateFromEpoch w.tz T) ∧
    fn = findFree (derivedBase w name T) (resolveExt w name) ex := by
  unfold sidecarPhase at hout
  dsimp only at hout
  rw [hmeta] at hout
  dsimp only at hout
  rw [hts] at hout
  dsimp only [Option.orElse] at hout
  revert hout
  repeat' split
  all_goals intro hout
  all_goals first
    | (apply renamePhase_renamed_shape _ _ _ _ _ _ _ _ _ hout)
    | (exfalso; simp at hout)

theorem filePhase_renamed_shape (w : RWorld) (sd td : String) (fns ex : List String)
    (name j : String) (md : SidecarMeta) (T : Nat) (fn exifStr : String)
    (hfind : fns.find? (fun f => startsWithS f name && endsWithS f ".json") = some j)
    (hmeta : w.meta j = some md) (hts : md.photoTakenTs = some T)
    (hout : (filePhase w sd td fns ex name).1 = .placedRenamed fn exifStr) :
    exifStr = formatExifDate (dateFromEpoch w.tz T) ∧
    fn = findFree (derivedBase w name T) (resolveExt w name) ex := by
  unfold filePhase at hout
  dsimp only at hout
  rw [hfind] at hout
  dsimp only at hout
  revert hout
  repeat' split
  all_goals intro hout
  all_goals first
    | (apply sidecarPhase_renamed_shape _ _ _ _ _ _ _ _ _ _ _ _ hmeta hts hout)
    | (exfalso; simp at hout)

theorem processEntry_renamed_shape (w : RWorld) (sd td : String) (fns ex : List String)
    (name j : String) (md : SidecarMeta) (T : Nat) (fn exifStr : String)
    (hfind : fns.find? (fun f => startsWithS f name && endsWithS f ".json") = some j)
    (hmeta : w.meta j = some md) (hts : md.photoTakenTs = some T)
    (hout : (processEntry w sd td fns ex (name, false)).1 = .placedRenamed fn exifStr) :
    exifStr = formatExifDate (dateFromEpoch w.tz T) ∧
    fn = findFree (derivedBase w name T) (resolveExt w name) ex := by
  unfold processEntry at hout
  dsimp only at hout
  revert hout
  repeat' split
  all_goals intro hout
  all_goals first
    | (apply filePhase_renamed_shape _ _ _ _ _ _ _ _ _ _ _ hfind hmeta hts hout)
    | (exfalso; simp at hout)

theorem renamePhase_renamed_shape_ex (w : RWorld) (td tmp name : String)
    (ex : List String) (ts : Nat) (opsPre : List RemoteOp) (fn exifStr : String)
    (hout : (renamePhase w td tmp name ex ts opsPre).1 = .placedRenamed fn exifStr) :
    ∃ T, fn = findFree (derivedBase w name T) (resolveExt w name) ex :=
  ⟨ts, (renamePhase_renamed_shape w td tmp name ex ts opsPre fn exifStr hout).2⟩

theorem sidecarPhase_renamed_shape_ex (w : RWorld) (sd td tmp name : String)
    (ex : List String) (j : String) (ops0 : List RemoteOp) (fn exifStr : String)
    (hout : (sidecarPhase w sd td tmp name ex j ops0).1 = .placedRenamed fn exifStr) :
    ∃ T, fn = findFree (derivedBase w name T) (resolveExt w name) ex := by
  unfold sidecarPhase at hout
  dsimp only at hout
  revert hout
  repeat' split
  all_goals intro hout
  all_goals first
    | (apply renamePhase_renamed_shape_ex _ _ _ _ _ _ _ _ _ hout)
    | (exfalso; simp at hout)

theorem filePhase_renamed_shape_ex (w : RWorld) (sd td : String)
    (fns ex : List String) (name : String) (fn exifStr : String)
    (hout : (filePhase w sd td fns ex name).1 = .placedRenamed fn exifStr) :
    ∃ T, fn = findFree (derivedBase w name T) (resolveExt w name) ex := by
  unfold filePhase at hout
  dsimp only at hout
  revert hout
  repeat' split
  all_goals intro hout
  all_goals first
    | (apply sidecarPhase_renamed_shape_ex _ _ _ _ _ _ _ _ _ _ hout)
    | (exact absurd hout ((noSidecarPhase_cases _ _ _ _ _ _).1 fn exifStr))
    | (exfalso; simp at hout)

theorem processEntry_renamed_shape_ex (w : RWorld) (sd td : String)
    (fns ex : List String) (name : String) (fn exifStr : String)
    (hout : (processEntry w sd td fns ex (name, false)).1 = .placedRenamed fn exifStr) :
    ∃ T, fn = findFree (derivedBase w name T) (resolveExt w name) ex := by
  unfold processEntry at hout
  dsimp only at hout
  revert hout
  repeat' split
  all_goals intro hout
  all_goals first
    | (apply filePhase_renamed_shape_ex _ _ _ _ _ _ _ _ hout)
    | (exfalso; simp at hout)

/-! ## C5: derived name and embedded time agree with the sidecar -/

/-- C5. For a media file whose sidecar resolves (by the prefix lookup)
and carries `photoTakenTime.timestamp = T`, a derived-name placement
uses the local calendar rendering of `T`: the final name extends
`formatDate` (format `YYYY-MM-DD_hh-mm-ss`) of the converted epoch, the
embedded capture-time attribute is written as `formatExifDate` (format
`YYYY:MM:DD hh:mm:ss`) of the same conversion, and the two strings
render the same six calendar fields. -/
theorem c5_rename_matches_sidecar_time (w : RWorld) (sd td : String)
    (fns ex : List String) (name j : String) (md : SidecarMeta) (T : Nat)
    (fn exifStr : String)
    (hfind : fns.find? (fun f => startsWithS f name && endsWithS f ".json") = some j)
    (hmeta : w.meta j = some md) (hts : md.photoTakenTs = some T)
    (hout : (processEntry w sd td fns ex (name, false)).1 = .placedRenamed fn exifStr) :
    exifStr = formatExifDate (dateFromEpoch w.tz T) ∧
    (∃ rest, fn = formatDate (dateFromEpoch w.tz T) ++ rest) ∧
    (∃ yS MS DS hS mS sS,
      formatDate (dateFromEpoch w.tz T) =
        yS ++ "-" ++ MS ++ "-" ++ DS ++ "_" ++ hS ++ "-" ++ mS ++ "-" ++ sS ∧
      formatExifDate (dateFromEpoch w.tz T) =
        yS ++ ":" ++ MS ++ ":" ++ DS ++ " " ++ hS ++ ":" ++ mS ++ ":" ++ sS) := by
  obtain ⟨hexif, hfn⟩ :=
    processEntry_renamed_shape w sd td fns ex name j md T fn exifStr hfind hmeta hts hout
  refine ⟨hexif, ?_, ?_⟩
  · obtain ⟨rest, hr⟩ := findFree_base_prefix (derivedBase w name T) (resolveExt w name) ex
    rw [hfn, hr]
    unfold derivedBase
    exact ⟨(if containsS (toLowerS name) "-edited" then "-edited" else "") ++ rest,
      by rw [strAssoc]⟩
  · exact ⟨toString (dateFromEpoch w.tz T).year, pad2 (dateFromEpoch w.tz T).month,
      pad2 (dateFromEpoch w.tz T).day, pad2 (dateFromEpoch w.tz T).hour,
      pad2 (dateFromEpoch w.tz T).minute, pad2 (dateFromEpoch w.tz T).second, rfl, rfl⟩

set_option maxRecDepth 100000 in
/-- C5, witness at a concrete sidecar-backed file. -/
theorem c5_rename_matches_sidecar_time_witness :
    "2021:01:01 00:00:00" = formatExifDate (dateFromEpoch exC5world.tz 1609459200) ∧
    (∃ rest, "2021-01-01_00-00-00.jpg" =
      formatDate (dateFromEpoch exC5world.tz 1609459200) ++ rest) ∧
    (∃ yS MS DS hS mS sS,
      formatDate (dateFromEpoch exC5world.tz 1609459200) =
        yS ++ "-" ++ MS ++ "-" ++ DS ++ "_" ++ hS ++ "-" ++ mS ++ "-" ++ sS ∧
      formatExifDate (dateFromEpoch exC5world.tz 1609459200) =
        yS ++ ":" ++ MS ++ ":" ++ DS ++ " " ++ hS ++ ":" ++ mS ++ ":" ++ sS) :=
  c5_rename_matches_sidecar_time exC5world "src" "tgt"
    (renNames exC5world.sourceListing) [] "Foo.jpg" "Foo.jpg.json"
    ⟨some 1609459200, none⟩ 1609459200 "2021-01-01_00-00-00.jpg" "2021:01:01 00:00:00"
    (by decide) (by decide) (by decide) (by decide)

/-! ## C6: the final extension -/

set_option maxRecDepth 100000 in
/-- C6, counterexample. A renamed file whose signature inspection
reported no `FileTypeExtension` still gets an extension — taken from the
existing filename (`pic.JPG` → `.jpg`), contradicting "determined by
inspecting the file's type-signature bytes, not by the existing filename
extension". -/
theorem c6_counterexample :
    (processEntry exC6world "src" "tgt" (renNames exC6world.sourceListing) []
        ("pic.JPG", false)).1 =
      .placedRenamed "2021-01-01_00-00-00.jpg" "2021:01:01 00:00:00" ∧
    exC6world.trueExt "pic.JPG" = none ∧
    extnameDrop "pic.JPG" = "JPG" := by
  exact ⟨by decide, by decide, by decide⟩

/-- C6, amended. When the signature inspection reports a (non-empty)
extension, the final name of a renamed file ends with that extension,
lowercased, regardless of the filename's own extension; only when the
tool reports none does the code fall back to the filename extension. -/
theorem c6_amended_extension (w : RWorld) (sd td : String) (fns ex : List String)
    (name e0 fn exifStr : String)
    (htrue : w.trueExt name = some e0) (hne : e0 ≠ "")
    (hout : (processEntry w sd td fns ex (name, false)).1 = .placedRenamed fn exifStr) :
    ∃ pre, fn = pre ++ ("." ++ toLowerS e0) := by
  obtain ⟨T, hfn⟩ := processEntry_renamed_shape_ex w sd td fns ex name fn exifStr hout
  have hres : resolveExt w name = toLowerS e0 := by
    unfold resolveExt
    rw [htrue]
    dsimp only
    rw [if_neg hne]
  rw [hfn, hres]
  exact findFree_ext_suffix (derivedBase w name T) (toLowerS e0) ex

set_option maxRecDepth 100000 in
/-- C6, witness for the amended theorem: with a reported `HEIC`
signature the final name ends in `.heic` although the file is named
`pic.JPG`. -/
theorem c6_amended_extension_witness :
    ∃ pre, "2021-01-01_00-00-00.heic" = pre ++ ("." ++ toLowerS "HEIC") :=
  c6_amended_extension exC6world2 "src" "tgt" (renNames exC6world2.sourceListing) []
    "pic.JPG" "HEIC" "2021-01-01_00-00-00.heic" "2021:01:01 00:00:00"
    (by decide) (by decide) (by decide)

/-! ## C7: per-file isolation and staging cleanup -/

/-- C7. The loop records one outcome per listing entry — an error in one
file's processing never aborts the batch — and whenever a file's
processing staged a local copy (a `download` appears in its trace), the
last operation of that trace is the `finally` removal of the staging
copy, on success and failure alike. -/
theorem c7_isolation_and_cleanup :
    (∀ w : RWorld, ∀ sd td : String,
      (processDirectory w sd td).results.length =
        (renEntries w.sourceListing).length) ∧
    (∀ w : RWorld, ∀ sd td : String, ∀ fns ex : List String,
      ∀ e : String × Bool, ∀ p q : String,
      RemoteOp.download p q ∈ (processEntry w sd td fns ex e).2.2 →
      ((processEntry w sd td fns ex e).2.2).getLast? =
        some (.removeTemp (tmpP e.1))) := by
  constructor
  · intro w sd td
    unfold processDirectory
    dsimp only
    rw [foldl_processStep_length]
    simp
  · intro w sd td fns ex e p q hdl
    rcases processEntry_cleanup w sd td fns ex e with h | h
    · rw [h] at hdl; simp at hdl
    · exact h

set_option maxRecDepth 100000 in
/-- C7, witness: a file whose upload fails still ends its trace with the
staging-copy removal. -/
theorem c7_isolation_and_cleanup_witness :
    ((processEntry exC7world "src" "tgt" (renNames exC7world.sourceListing) []
        ("Foo.jpg", false)).2.2).getLast? =
      some (.removeTemp (tmpP "Foo.jpg")) :=
  c7_isolation_and_cleanup.2 exC7world "src" "tgt"
    (renNames exC7world.sourceListing) [] ("Foo.jpg", false)
    (joinP "src" "Foo.jpg") (tmpP "Foo.jpg") (by decide)

/-! ## C9: dot entries are excluded entirely by the Mover -/

/-- C9. Every entry parsed by `mergeDirectoryContents` has a name that
does not begin with a dot (the line filter drops dot-prefixed lines
beyond just `.` and `..`), and a dot-named file or subdirectory of the
source tree is left untouched by a merge — it is neither moved nor
recursed into. -/
theorem c9_dot_entries_excluded :
    (∀ raw : String, ∀ e ∈ parseListing raw, startsWithDot e.name = false) ∧
    (∀ dry : Bool, ∀ fuel : Nat, ∀ sp tp : String, ∀ src : FsTree, ∀ ts : TState,
      ∀ n : String, ∀ k : Option FsTree,
      (n, k) ∈ src.entries → startsWithDot n = true →
      (n, k) ∈ (mergeT dry fuel sp tp src ts).1.entries) := by
  constructor
  · exact fun raw e he => parseListing_no_dot raw e he
  · intro dry fuel sp tp src ts n k hmem hdot
    cases fuel with
    | zero => simpa [mergeT] using hmem
    | succ fuel =>
      rw [mergeT.eq_def]
      dsimp only [FsTree.entries]
      exact mergeEntries_keeps_dots dry (mergeT dry fuel) sp tp src.entries _ [] []
        n k hmem hdot

set_option maxRecDepth 100000 in
/-- C9, witness: a hidden listing entry is dropped by the parser, and a
dot-named file survives a concrete merge in place. -/
theorem c9_dot_entries_excluded_witness :
    startsWithDot (DirEntry.mk "IMG.jpg" false).name = false ∧
    (".thumb", (none : Option FsTree)) ∈
      (mergeT false 1 "s" "t" (.node [(".thumb", none), ("x.jpg", none)])
        .absent).1.entries := by
  constructor
  · exact c9_dot_entries_excluded.1 exRawHidden ⟨"IMG.jpg", false⟩ (by decide)
  · exact c9_dot_entries_excluded.2 false 1 "s" "t" _ _ ".thumb" none
      (by simp [FsTree.entries]) (by decide)

/-! ## C10: the defensive collision check never fires -/

/-- C10. The suffix-search loop always terminates on a name outside the
known target-name set (the candidates are pairwise distinct, so at most
`|known| + 1` are tried), hence the defensive post-loop collision check
is unreachable: no loop iteration ever produces the "still colliding"
skip outcome. -/
theorem c10_collision_branch_unreachable (w : RWorld) (sd td : String)
    (fns ex : List String) (e : String × Bool) (n' : String) :
    (processEntry w sd td fns ex e).1 ≠ .skippedStillColliding n' :=
  processEntry_no_collide w sd td fns ex e n'

/-! ## Mover state lemmas -/


theorem mergeT_zero (dry : Bool) (sp tp : String) (src : FsTree) (ts : TState) :
    mergeT dry 0 sp tp src ts = (src, ts, []) := rfl

theorem entryAt_mem : ∀ (es : List Ent) (n : String) (v : Option FsTree),
    entryAt es n = some v → (n, v) ∈ es := by
  intro es
  induction es with
  | nil => intro n v h; simp [entryAt] at h
  | cons e rest ih =>
    intro n v h
    obtain ⟨m, u⟩ := e
    rw [entryAt] at h
    split at h
    · next heq => simp only [Option.some.injEq] at h; subst h; subst heq; simp
    · exact List.mem_cons_of_mem _ (ih n v h)

theorem entryAt_none_iff : ∀ (es : List Ent) (n : String),
    entryAt es n = none ↔ n ∉ names es := by
  intro es
  induction es with
  | nil => intro n; simp [entryAt, names]
  | cons e rest ih =>
    intro n
    obtain ⟨m, u⟩ := e
    rw [entryAt]
    constructor
    · intro h
      split at h
      · simp at h
      · next hne =>
        simp only [names, List.map_cons, List.mem_cons]
        push_neg
        exact ⟨fun he => hne he.symm, (ih n).mp h⟩
    · intro h
      simp only [names, List.map_cons, List.mem_cons] at h
      push_neg at h
      rw [if_neg (fun he => h.1 he.symm)]
      exact (ih n).mpr h.2

theorem entryAt_append_ne : ∀ (es es2 : List Ent) (n : String),
    (∀ m v, (m, v) ∈ es2 → m ≠ n) →
    entryAt (es ++ es2) n = entryAt es n := by
  intro es es2 n hne
  induction es with
  | nil =>
    simp only [List.nil_append, entryAt]
    induction es2 with
    | nil => rfl
    | cons e2 rest2 ih2 =>
      obtain ⟨m, u⟩ := e2
      rw [entryAt]
      rw [if_neg (hne m u (by simp))]
      exact ih2 (fun m2 v2 h2 => hne m2 v2 (List.mem_cons_of_mem _ h2))
  | cons e rest ih =>
    obtain ⟨m, u⟩ := e
    rw [List.cons_append, entryAt, entryAt]
    split
    · rfl
    · exact ih

theorem setEntry_names : ∀ (es : List Ent) (n : String) (t : FsTree),
    names (setEntry es n t) = if n ∈ names es then names es else names es ++ [n] := by
  intro es n t
  induction es with
  | nil => simp [setEntry, names]
  | cons e rest ih =>
    obtain ⟨m, u⟩ := e
    rw [setEntry]
    split
    · next heq => subst heq; simp [names]
    · next hne =>
      simp only [names, List.map_cons] at ih ⊢
      rw [ih]
      by_cases hmem : n ∈ List.map Prod.fst rest
      · rw [if_pos hmem, if_pos (List.mem_cons_of_mem m hmem)]
      · rw [if_neg hmem, if_neg (by
          simp only [List.mem_cons]
          push_neg
          exact ⟨fun he => hne he.symm, hmem⟩)]
        simp

theorem setEntry_entryAt_self : ∀ (es : List Ent) (n : String) (t : FsTree),
    entryAt (setEntry es n t) n = some (some t) := by
  intro es n t
  induction es with
  | nil => simp [setEntry, entryAt]
  | cons e rest ih =>
    obtain ⟨m, u⟩ := e
    rw [setEntry]
    split
    · rw [entryAt, if_pos rfl]
    · next hne =>
      rw [entryAt, if_neg hne]
      exact ih

theorem setEntry_entryAt_other : ∀ (es : List Ent) (n m : String) (t : FsTree),
    m ≠ n → entryAt (setEntry es n t) m = entryAt es m := by
  intro es n m t hmn
  induction es with
  | nil =>
    rw [setEntry, entryAt, entryAt, if_neg (fun h => hmn h.symm)]
    rfl
  | cons e rest ih =>
    obtain ⟨m2, u⟩ := e
    rw [setEntry]
    split
    · next heq =>
      subst heq
      rw [entryAt, entryAt, if_neg (fun h => hmn h.symm), if_neg (fun h => hmn h.symm)]
    · rw [entryAt, entryAt]
      split
      · rfl
      · exact ih

theorem setEntry_mem : ∀ (es : List Ent) (n : String) (t : FsTree) (m : String)
    (v : Option FsTree), (m, v) ∈ setEntry es n t → (m, v) ∈ es ∨ (m, v) = (n, some t) := by
  intro es n t
  induction es with
  | nil => intro m v h; simp [setEntry] at h; simp [h]
  | cons e rest ih =>
    intro m v h
    obtain ⟨m2, u⟩ := e
    rw [setEntry] at h
    split at h
    · next heq =>
      rcases List.mem_cons.mp h with h2 | h2
      · right; exact h2
      · left; exact List.mem_cons_of_mem _ h2
    · rcases List.mem_cons.mp h with h2 | h2
      · left; simp [h2]
      · rcases ih m v h2 with h3 | h3
        · left; exact List.mem_cons_of_mem _ h3
        · right; exact h3

theorem setEntry_self_id : ∀ (es : List Ent) (n : String) (t : FsTree),
    entryAt es n = some (some t) → setEntry es n t = es := by
  intro es n t
  induction es with
  | nil => intro h; simp [entryAt] at h
  | cons e rest ih =>
    intro h
    obtain ⟨m, u⟩ := e
    rw [entryAt] at h
    rw [setEntry]
    split
    · next heq =>
      subst heq
      rw [if_pos rfl] at h
      simp only [Option.some.injEq] at h
      rw [h]
    · next hne =>
      rw [if_neg (by intro he; exact hne he)] at h
      rw [ih h]



theorem mergeEntries_blocked (dry : Bool)
    (child : String → String → FsTree → TState → FsTree × TState × List RemoteOp)
    (sp tp : String)
    (hchild : ∀ sp2 tp2 sd, (child sp2 tp2 sd .file).1 = sd ∧
      (child sp2 tp2 sd .file).2.1 = .file) :
    ∀ rem sacc ops,
      (mergeEntries dry child sp tp rem none sacc ops).1 = none ∧
      (mergeEntries dry child sp tp rem none sacc ops).2.1 = sacc ++ rem := by
  intro rem
  induction rem with
  | nil => intro sacc ops; simp [mergeEntries]
  | cons e rest ih =>
    intro sacc ops
    obtain ⟨n, k⟩ := e
    rw [mergeEntries.eq_def]
    dsimp only
    repeat' split
    all_goals first
      | (refine ⟨(ih _ _).1, ?_⟩
         rw [(ih _ _).2, (hchild _ _ _).1]
         simp)
      | (refine ⟨(ih _ _).1, ?_⟩
         rw [(ih _ _).2]
         simp)

theorem mergeT_file_id (dry : Bool) : ∀ fuel sp tp src,
    (mergeT dry fuel sp tp src .file).1 = src ∧
    (mergeT dry fuel sp tp src .file).2.1 = .file := by
  intro fuel
  induction fuel with
  | zero => intro sp tp src; exact ⟨rfl, rfl⟩
  | succ fuel ih =>
    intro sp tp src
    rw [mergeT.eq_def]
    dsimp only
    have hb := mergeEntries_blocked dry (mergeT dry fuel) sp tp
      (fun sp2 tp2 sd => ih sp2 tp2 sd) src.entries [] []
    rw [hb.1, hb.2]
    dsimp only
    constructor
    · cases src; rfl
    · rfl

theorem mergeEntries_target_some (dry : Bool)
    (child : String → String → FsTree → TState → FsTree × TState × List RemoteOp)
    (sp tp : String) :
    ∀ rem tes sacc ops, ∃ tes2,
      (mergeEntries dry child sp tp rem (some tes) sacc ops).1 = some tes2 := by
  intro rem
  induction rem with
  | nil => intro tes sacc ops; exact ⟨tes, rfl⟩
  | cons e rest ih =>
    intro tes sacc ops
    obtain ⟨n, k⟩ := e
    rw [mergeEntries.eq_def]
    dsimp only
    repeat' split
    all_goals apply ih

theorem mergeT_dir_out (dry : Bool) : ∀ fuel sp tp src t,
    ∃ t2, (mergeT dry fuel sp tp src (.dir t)).2.1 = .dir t2 := by
  intro fuel
  cases fuel with
  | zero => intro sp tp src t; exact ⟨t, rfl⟩
  | succ fuel =>
    intro sp tp src t
    rw [mergeT.eq_def]
    dsimp only
    obtain ⟨tes2, h2⟩ := mergeEntries_target_some dry (mergeT dry fuel) sp tp
      src.entries t.entries [] []
    rw [h2]
    exact ⟨.node tes2, rfl⟩

theorem mergeT_absent_out (dry : Bool) : ∀ fuel sp tp src,
    (fuel = 0 ∧ (mergeT dry fuel sp tp src .absent).2.1 = .absent) ∨
    (∃ t2, (mergeT dry fuel sp tp src .absent).2.1 = .dir t2) := by
  intro fuel
  cases fuel with
  | zero => intro sp tp src; exact Or.inl ⟨rfl, rfl⟩
  | succ fuel =>
    intro sp tp src
    right
    rw [mergeT.eq_def]
    dsimp only
    obtain ⟨tes2, h2⟩ := mergeEntries_target_some dry (mergeT dry fuel) sp tp
      src.entries [] [] []
    rw [h2]
    exact ⟨.node tes2, rfl⟩



theorem tsFromLookup_eq_dir {tes : List Ent} {n : String} {td : FsTree}
    (h : tsFromLookup tes n = .dir td) : entryAt tes n = some (some td) := by
  unfold tsFromLookup at h
  rcases he : entryAt tes n with _ | v
  · rw [he] at h; simp at h
  · rw [he] at h
    cases v with
    | none => simp at h
    | some t2 => simp only [TState.dir.injEq] at h; rw [h]

theorem tsFromLookup_eq_absent {tes : List Ent} {n : String}
    (h : tsFromLookup tes n = .absent) : entryAt tes n = none := by
  unfold tsFromLookup at h
  rcases he : entryAt tes n with _ | v
  · rfl
  · rw [he] at h
    cases v with
    | none => simp at h
    | some t2 => simp at h

theorem SEnt_of_dot (fuel : Nat) (sp tp : String) (tes : List Ent) (n : String)
    (k : Option FsTree) (hdot : startsWithDot n = true) :
    SEnt fuel sp tp tes (n, k) := by
  cases k with
  | none => intro hf; rw [hf] at hdot; cases hdot
  | some sd => intro hf; rw [hf] at hdot; cases hdot

theorem SEnt_preserve (fuel : Nat) (sp tp : String) (tes tes2 : List Ent) (e : Ent)
    (hnames : ∀ m, m ∈ names tes → m ∈ names tes2)
    (hAt : entryAt tes2 e.1 = entryAt tes e.1)
    (h : SEnt fuel sp tp tes e) : SEnt fuel sp tp tes2 e := by
  obtain ⟨m, k⟩ := e
  cases k with
  | none => intro hf; exact hnames m (h hf)
  | some sd =>
    intro hf
    have h2 := h hf
    have hts : tsFromLookup tes2 m = tsFromLookup tes m := by
      unfold tsFromLookup
      rw [hAt]
    rw [hts]
    exact h2

theorem names_mem_setEntry (tes : List Ent) (n : String) (td : FsTree) (m : String)
    (hm : m ∈ names tes) : m ∈ names (setEntry tes n td) := by
  rw [setEntry_names]
  split
  · exact hm
  · exact List.mem_append_left _ hm

theorem names_cons (e : Ent) (es : List Ent) : names (e :: es) = e.1 :: names es := rfl

theorem names_append (a b : List Ent) : names (a ++ b) = names a ++ names b := by
  simp [names]

theorem names_singleton (e : Ent) : names [e] = [e.1] := rfl

theorem names_snoc_sub {res : List String} (sacc2 : List Ent) (e2 e3 : Ent)
    (rest2 : List Ent)
    (h : List.Sublist res (names (sacc2 ++ [e2]) ++ names rest2))
    (hx : e2.1 = e3.1) :
    List.Sublist res (names sacc2 ++ names (e3 :: rest2)) := by
  rw [names_append, names_singleton, List.append_assoc, List.singleton_append] at h
  rw [names_cons, ← hx]
  exact h

theorem names_keep_sub {res : List String} (sacc2 : List Ent) (e2 : Ent)
    (rest2 : List Ent)
    (h : List.Sublist res (names sacc2 ++ names rest2)) :
    List.Sublist res (names sacc2 ++ names (e2 :: rest2)) := by
  rw [names_cons]
  exact h.trans (List.Sublist.append_left (List.Sublist.cons _ (List.Sublist.refl _)) _)

theorem nodup_append_singleton (l : List String) (n : String) (h : l.Nodup)
    (hn : n ∉ l) : (l ++ [n]).Nodup := by
  rw [List.nodup_append]
  refine ⟨h, List.nodup_singleton n, ?_⟩
  intro a ha hb
  rw [List.mem_singleton] at hb
  subst hb
  exact hn ha

theorem mergeEntries_establishes (fuel : Nat) (sp tp : String)
    (hM : ∀ sp2 tp2 src2 ts2, WF src2 → WFT ts2 →
      (WF (mergeT false fuel sp2 tp2 src2 ts2).1 ∧
       WFT (mergeT false fuel sp2 tp2 src2 ts2).2.1) ∧
      ((mergeT false fuel sp2 tp2 (mergeT false fuel sp2 tp2 src2 ts2).1
          (mergeT false fuel sp2 tp2 src2 ts2).2.1).1 =
         (mergeT false fuel sp2 tp2 src2 ts2).1 ∧
       (mergeT false fuel sp2 tp2 (mergeT false fuel sp2 tp2 src2 ts2).1
          (mergeT false fuel sp2 tp2 src2 ts2).2.1).2.1 =
         (mergeT false fuel sp2 tp2 src2 ts2).2.1)) :
    ∀ (rem tes sacc : List Ent) (ops : List RemoteOp),
      (names rem).Nodup →
      (∀ n sd, (n, some sd) ∈ rem → WF sd) →
      AccWF tes →
      (∀ e ∈ sacc, SEnt fuel sp tp tes e) →
      (∀ e ∈ sacc, e.1 ∉ names rem) →
      (∀ n sd, (n, some sd) ∈ sacc → WF sd) →
      ∃ tes2,
        (mergeEntries false (mergeT false fuel) sp tp rem (some tes) sacc ops).1 =
          some tes2 ∧
        AccWF tes2 ∧
        (∀ m, m ∈ names tes → m ∈ names tes2) ∧
        (∀ e ∈ (mergeEntries false (mergeT false fuel) sp tp rem (some tes) sacc ops).2.1,
          SEnt fuel sp tp tes2 e) ∧
        List.Sublist
          (names (mergeEntries false (mergeT false fuel) sp tp rem (some tes) sacc ops).2.1)
          (names sacc ++ names rem) ∧
        (∀ n sd,
          (n, some sd) ∈ (mergeEntries false (mergeT false fuel) sp tp rem (some tes) sacc ops).2.1 →
          WF sd) := by
  intro rem
  induction rem with
  | nil =>
    intro tes sacc ops _ _ hAcc hstable _ hsaccWF
    exact ⟨tes, rfl, hAcc, fun m hm => hm, fun e he => hstable e he,
      by simp [mergeEntries, names], fun n sd h => hsaccWF n sd h⟩
  | cons e rest ih =>
    intro tes sacc ops hnd hsrcWF hAcc hstable hdisj hsaccWF
    obtain ⟨n, k⟩ := e
    have hnd' : (names rest).Nodup := by
      rw [names_cons] at hnd
      exact hnd.of_cons
    have hnnotin : n ∉ names rest := by
      rw [names_cons] at hnd
      exact (List.nodup_cons.mp hnd).1
    have hsrcWF' : ∀ m sd, (m, some sd) ∈ rest → WF sd :=
      fun m sd h => hsrcWF m sd (List.mem_cons_of_mem _ h)
    have hdisj' : ∀ e ∈ sacc, e.1 ∉ names rest := by
      intro e he hmem
      exact hdisj e he (by rw [names_cons]; exact List.mem_cons_of_mem _ hmem)
    have hdisjn : ∀ e ∈ sacc, e.1 ≠ n := by
      intro e he heq
      exact hdisj e he (by rw [names_cons, heq]; exact List.mem_cons_self _ _)
    rw [mergeEntries.eq_def]
    dsimp only
    by_cases hdot : startsWithDot n = true
    · rw [if_pos hdot]
      have hstable2 : ∀ e ∈ sacc ++ [(n, k)], SEnt fuel sp tp tes e := by
        intro e he
        rcases List.mem_append.mp he with h | h
        · exact hstable e h
        · rw [List.mem_singleton] at h
          subst h
          exact SEnt_of_dot fuel sp tp tes n k hdot
      have hdisj2 : ∀ e ∈ sacc ++ [(n, k)], e.1 ∉ names rest := by
        intro e he
        rcases List.mem_append.mp he with h | h
        · exact hdisj' e h
        · rw [List.mem_singleton] at h
          subst h
          exact hnnotin
      have hsaccWF2 : ∀ m sd, (m, some sd) ∈ sacc ++ [(n, k)] → WF sd := by
        intro m sd h
        rcases List.mem_append.mp h with h | h
        · exact hsaccWF m sd h
        · rw [List.mem_singleton] at h
          have : m = n ∧ k = some sd := by
            constructor
            · exact congrArg Prod.fst h
            · exact (congrArg Prod.snd h).symm
          exact hsrcWF n sd (by rw [← this.2]; exact List.mem_cons_self _ _)
      obtain ⟨tes2, h1, h2, h3, h4, h5, h6⟩ :=
        ih tes (sacc ++ [(n, k)]) ops hnd' hsrcWF' hAcc hstable2 hdisj2 hsaccWF2
      refine ⟨tes2, h1, h2, h3, h4, ?_, h6⟩
      exact names_snoc_sub _ _ _ _ h5 rfl
    · rw [if_neg hdot]
      have hdotf : startsWithDot n = false := by
        revert hdot; cases startsWithDot n <;> simp
      match k with
      | none =>
        dsimp only
        rw [if_neg (by decide : ¬(false = true))]
        by_cases hmem : n ∈ names tes
        · rw [if_pos hmem]
          have hstable2 : ∀ e ∈ sacc ++ [(n, none)], SEnt fuel sp tp tes e := by
            intro e he
            rcases List.mem_append.mp he with h | h
            · exact hstable e h
            · rw [List.mem_singleton] at h
              subst h
              exact fun _ => hmem
          have hdisj2 : ∀ e ∈ sacc ++ [(n, (none : Option FsTree))], e.1 ∉ names rest := by
            intro e he
            rcases List.mem_append.mp he with h | h
            · exact hdisj' e h
            · rw [List.mem_singleton] at h
              subst h
              exact hnnotin
          have hsaccWF2 : ∀ m sd, (m, some sd) ∈ sacc ++ [(n, (none : Option FsTree))] → WF sd := by
            intro m sd h
            rcases List.mem_append.mp h with h | h
            · exact hsaccWF m sd h
            · rw [List.mem_singleton] at h
              exact absurd (congrArg Prod.snd h) (by simp)
          obtain ⟨tes2, h1, h2, h3, h4, h5, h6⟩ :=
            ih tes (sacc ++ [(n, none)]) _ hnd' hsrcWF' hAcc hstable2 hdisj2 hsaccWF2
          refine ⟨tes2, h1, h2, h3, h4, ?_, h6⟩
          exact names_snoc_sub _ _ _ _ h5 rfl
        · rw [if_neg hmem]
          have hAcc2 : AccWF (tes ++ [(n, none)]) := by
            constructor
            · rw [names_append]
              exact nodup_append_singleton _ _ hAcc.1 hmem
            · intro m td h
              rcases List.mem_append.mp h with h | h
              · exact hAcc.2 m td h
              · rw [List.mem_singleton] at h
                exact absurd (congrArg Prod.snd h) (by simp)
          have hstable2 : ∀ e ∈ sacc, SEnt fuel sp tp (tes ++ [(n, none)]) e := by
            intro e he
            refine SEnt_preserve fuel sp tp tes _ e ?_ ?_ (hstable e he)
            · intro m hm
              rw [names_append]
              exact List.mem_append_left _ hm
            · refine entryAt_append_ne tes _ e.1 ?_
              intro m v hm
              rw [List.mem_singleton] at hm
              have hmn : m = n := congrArg Prod.fst hm
              rw [hmn]
              exact fun h => hdisjn e he h.symm
          obtain ⟨tes2, h1, h2, h3, h4, h5, h6⟩ :=
            ih (tes ++ [(n, none)]) sacc _ hnd' hsrcWF' hAcc2 hstable2 hdisj' hsaccWF
          refine ⟨tes2, h1, ?_, ?_, h4, ?_, h6⟩
          · exact h2
          · intro m hm
            exact h3 m (by rw [names_append]; exact List.mem_append_left _ hm)
          · exact names_keep_sub _ _ _ h5
      | some sd =>
        dsimp only
        have hWFsd : WF sd := hsrcWF n sd (List.mem_cons_self _ _)
        cases hL : tsFromLookup tes n with
        | dir td =>
          have hWFtd : WF td :=
            hAcc.2 n td (entryAt_mem tes n (some td) (tsFromLookup_eq_dir hL))
          have hMr := hM (joinP sp n) (joinP tp n) sd (.dir td) hWFsd hWFtd
          obtain ⟨td2, hout⟩ := mergeT_dir_out false fuel (joinP sp n) (joinP tp n) sd td
          rw [hout]
          dsimp only
          have hWFr1 : WF (mergeT false fuel (joinP sp n) (joinP tp n) sd (.dir td)).1 :=
            hMr.1.1
          have hWFtd2 : WF td2 := by
            have h := hMr.1.2
            rw [hout] at h
            exact h
          have hMr2 := hMr.2
          rw [hout] at hMr2
          have hmemn : n ∈ names tes :=
            List.mem_map_of_mem Prod.fst (entryAt_mem tes n (some td) (tsFromLookup_eq_dir hL))
          have hAcc2 : AccWF (setEntry tes n td2) := by
            constructor
            · rw [setEntry_names, if_pos hmemn]
              exact hAcc.1
            · intro m tdx h
              rcases setEntry_mem tes n td2 m (some tdx) h with h | h
              · exact hAcc.2 m tdx h
              · have : tdx = td2 := by
                  have h2 := congrArg Prod.snd h
                  simp at h2
                  exact h2
                rw [this]
                exact hWFtd2
          have hstable2 : ∀ e ∈ sacc ++ [(n, some (mergeT false fuel (joinP sp n) (joinP tp n) sd (.dir td)).1)],
              SEnt fuel sp tp (setEntry tes n td2) e := by
            intro e he
            rcases List.mem_append.mp he with h | h
            · refine SEnt_preserve fuel sp tp tes _ e ?_ ?_ (hstable e h)
              · intro m hm
                exact names_mem_setEntry tes n td2 m hm
              · exact setEntry_entryAt_other tes n e.1 td2 (hdisjn e h)
            · rw [List.mem_singleton] at h
              subst h
              intro _
              have hts2 : tsFromLookup (setEntry tes n td2) n = .dir td2 := by
                unfold tsFromLookup
                rw [setEntry_entryAt_self]
              rw [hts2]
              exact hMr2
          have hdisj2 : ∀ e ∈ sacc ++ [(n, some (mergeT false fuel (joinP sp n) (joinP tp n) sd (.dir td)).1)],
              e.1 ∉ names rest := by
            intro e he
            rcases List.mem_append.mp he with h | h
            · exact hdisj' e h
            · rw [List.mem_singleton] at h
              subst h
              exact hnnotin
          have hsaccWF2 : ∀ m sdx, (m, some sdx) ∈ sacc ++ [(n, some (mergeT false fuel (joinP sp n) (joinP tp n) sd (.dir td)).1)] → WF sdx := by
            intro m sdx h
            rcases List.mem_append.mp h with h | h
            · exact hsaccWF m sdx h
            · rw [List.mem_singleton] at h
              have h2 := congrArg Prod.snd h
              simp only [Option.some.injEq] at h2
              rw [h2]
              exact hWFr1
          obtain ⟨tes2, h1, h2, h3, h4, h5, h6⟩ :=
            ih (setEntry tes n td2) _ _ hnd' hsrcWF' hAcc2 hstable2 hdisj2 hsaccWF2
          refine ⟨tes2, h1, h2, ?_, h4, ?_, h6⟩
          · intro m hm
            exact h3 m (names_mem_setEntry tes n td2 m hm)
          · exact names_snoc_sub _ _ _ _ h5 rfl
        | file =>
          have hfi := mergeT_file_id false fuel (joinP sp n) (joinP tp n) sd
          rw [hfi.2]
          dsimp only
          have hstable2 : ∀ e ∈ sacc ++ [(n, some (mergeT false fuel (joinP sp n) (joinP tp n) sd .file).1)],
              SEnt fuel sp tp tes e := by
            intro e he
            rcases List.mem_append.mp he with h | h
            · exact hstable e h
            · rw [List.mem_singleton] at h
              subst h
              intro _
              rw [hL, hfi.1]
              exact ⟨(mergeT_file_id false fuel (joinP sp n) (joinP tp n) sd).1,
                (mergeT_file_id false fuel (joinP sp n) (joinP tp n) sd).2⟩
          have hdisj2 : ∀ e ∈ sacc ++ [(n, some (mergeT false fuel (joinP sp n) (joinP tp n) sd .file).1)],
              e.1 ∉ names rest := by
            intro e he
            rcases List.mem_append.mp he with h | h
            · exact hdisj' e h
            · rw [List.mem_singleton] at h
              subst h
              exact hnnotin
          have hsaccWF2 : ∀ m sdx, (m, some sdx) ∈ sacc ++ [(n, some (mergeT false fuel (joinP sp n) (joinP tp n) sd .file).1)] → WF sdx := by
            intro m sdx h
            rcases List.mem_append.mp h with h | h
            · exact hsaccWF m sdx h
            · rw [List.mem_singleton] at h
              have h2 := congrArg Prod.snd h
              simp only [Option.some.injEq] at h2
              rw [h2, hfi.1]
              exact hWFsd
          obtain ⟨tes2, h1, h2, h3, h4, h5, h6⟩ :=
            ih tes _ _ hnd' hsrcWF' hAcc hstable2 hdisj2 hsaccWF2
          refine ⟨tes2, h1, h2, h3, h4, ?_, h6⟩
          exact names_snoc_sub _ _ _ _ h5 rfl
        | absent =>
          have hnm : n ∉ names tes := (entryAt_none_iff tes n).mp (tsFromLookup_eq_absent hL)
          have hMr := hM (joinP sp n) (joinP tp n) sd .absent hWFsd True.intro
          rcases mergeT_absent_out false fuel (joinP sp n) (joinP tp n) sd with ⟨hf0, hout⟩ | ⟨td2, hout⟩
          · subst hf0
            rw [mergeT_zero]
            dsimp only
            have hstable2 : ∀ e ∈ sacc ++ [(n, some sd)], SEnt 0 sp tp tes e := by
              intro e he
              rcases List.mem_append.mp he with h | h
              · exact hstable e h
              · rw [List.mem_singleton] at h
                subst h
                intro _
                rw [mergeT_zero]
                exact ⟨rfl, rfl⟩
            have hdisj2 : ∀ e ∈ sacc ++ [(n, some sd)], e.1 ∉ names rest := by
              intro e he
              rcases List.mem_append.mp he with h | h
              · exact hdisj' e h
              · rw [List.mem_singleton] at h
                subst h
                exact hnnotin
            have hsaccWF2 : ∀ m sdx, (m, some sdx) ∈ sacc ++ [(n, some sd)] → WF sdx := by
              intro m sdx h
              rcases List.mem_append.mp h with h | h
              · exact hsaccWF m sdx h
              · rw [List.mem_singleton] at h
                have h2 := congrArg Prod.snd h
                simp only [Option.some.injEq] at h2
                rw [h2]
                exact hWFsd
            obtain ⟨tes2, h1, h2, h3, h4, h5, h6⟩ :=
              ih tes _ _ hnd' hsrcWF' hAcc hstable2 hdisj2 hsaccWF2
            refine ⟨tes2, h1, h2, h3, h4, ?_, h6⟩
            exact names_snoc_sub _ _ _ _ h5 rfl
          · rw [hout]
            dsimp only
            have hWFr1 : WF (mergeT false fuel (joinP sp n) (joinP tp n) sd .absent).1 :=
              hMr.1.1
            have hWFtd2 : WF td2 := by
              have h := hMr.1.2
              rw [hout] at h
              exact h
            have hMr2 := hMr.2
            rw [hout] at hMr2
            have hAcc2 : AccWF (setEntry tes n td2) := by
              constructor
              · rw [setEntry_names, if_neg hnm]
                exact nodup_append_singleton _ _ hAcc.1 hnm
              · intro m tdx h
                rcases setEntry_mem tes n td2 m (some tdx) h with h | h
                · exact hAcc.2 m tdx h
                · have : tdx = td2 := by
                    have h2 := congrArg Prod.snd h
                    simp at h2
                    exact h2
                  rw [this]
                  exact hWFtd2
            have hstable2 : ∀ e ∈ sacc ++ [(n, some (mergeT false fuel (joinP sp n) (joinP tp n) sd .absent).1)],
                SEnt fuel sp tp (setEntry tes n td2) e := by
              intro e he
              rcases List.mem_append.mp he with h | h
              · refine SEnt_preserve fuel sp tp tes _ e ?_ ?_ (hstable e h)
                · intro m hm
                  exact names_mem_setEntry tes n td2 m hm
                · exact setEntry_entryAt_other tes n e.1 td2 (hdisjn e h)
              · rw [List.mem_singleton] at h
                subst h
                intro _
                have hts2 : tsFromLookup (setEntry tes n td2) n = .dir td2 := by
                  unfold tsFromLookup
                  rw [setEntry_entryAt_self]
                rw [hts2]
                exact hMr2
            have hdisj2 : ∀ e ∈ sacc ++ [(n, some (mergeT false fuel (joinP sp n) (joinP tp n) sd .absent).1)],
                e.1 ∉ names rest := by
              intro e he
              rcases List.mem_append.mp he with h | h
              · exact hdisj' e h
              · rw [List.mem_singleton] at h
                subst h
                exact hnnotin
            have hsaccWF2 : ∀ m sdx, (m, some sdx) ∈ sacc ++ [(n, some (mergeT false fuel (joinP sp n) (joinP tp n) sd .absent).1)] → WF sdx := by
              intro m sdx h
              rcases List.mem_append.mp h with h | h
              · exact hsaccWF m sdx h
              · rw [List.mem_singleton] at h
                have h2 := congrArg Prod.snd h
                simp only [Option.some.injEq] at h2
                rw [h2]
                exact hWFr1
            obtain ⟨tes2, h1, h2, h3, h4, h5, h6⟩ :=
              ih (setEntry tes n td2) _ _ hnd' hsrcWF' hAcc2 hstable2 hdisj2 hsaccWF2
            refine ⟨tes2, h1, h2, ?_, h4, ?_, h6⟩
            · intro m hm
              exact h3 m (names_mem_setEntry tes n td2 m hm)
            · exact names_snoc_sub _ _ _ _ h5 rfl

theorem mergeEntries_stable (fuel : Nat) (sp tp : String) :
    ∀ (ses tes sacc : List Ent) (ops : List RemoteOp),
      (∀ e ∈ ses, SEnt fuel sp tp tes e) →
      (mergeEntries false (mergeT false fuel) sp tp ses (some tes) sacc ops).1 =
        some tes ∧
      (mergeEntries false (mergeT false fuel) sp tp ses (some tes) sacc ops).2.1 =
        sacc ++ ses := by
  intro ses
  induction ses with
  | nil => intro tes sacc ops _; exact ⟨rfl, by simp [mergeEntries]⟩
  | cons e rest ih =>
    intro tes sacc ops hst
    obtain ⟨n, k⟩ := e
    have hrest : ∀ e2 ∈ rest, SEnt fuel sp tp tes e2 :=
      fun e2 he2 => hst e2 (List.mem_cons_of_mem _ he2)
    have hhead := hst (n, k) (List.mem_cons_self _ _)
    rw [mergeEntries.eq_def]
    dsimp only
    by_cases hdot : startsWithDot n = true
    · rw [if_pos hdot]
      refine ⟨(ih _ _ _ hrest).1, ?_⟩
      rw [(ih _ _ _ hrest).2]
      simp
    · rw [if_neg hdot]
      have hdotf : startsWithDot n = false := by
        revert hdot; cases startsWithDot n <;> simp
      match k with
      | none =>
        dsimp only
        have hmem : n ∈ names tes := hhead hdotf
        rw [if_neg (by decide : ¬(false = true)), if_pos hmem]
        refine ⟨(ih _ _ _ hrest).1, ?_⟩
        rw [(ih _ _ _ hrest).2]
        simp
      | some sd =>
        dsimp only
        obtain ⟨hsd, hts⟩ := hhead hdotf
        rw [hsd, hts]
        cases hL : tsFromLookup tes n with
        | dir td =>
          dsimp only
          rw [setEntry_self_id tes n td (tsFromLookup_eq_dir hL)]
          refine ⟨(ih _ _ _ hrest).1, ?_⟩
          rw [(ih _ _ _ hrest).2]
          simp
        | file =>
          dsimp only
          refine ⟨(ih _ _ _ hrest).1, ?_⟩
          rw [(ih _ _ _ hrest).2]
          simp
        | absent =>
          dsimp only
          refine ⟨(ih _ _ _ hrest).1, ?_⟩
          rw [(ih _ _ _ hrest).2]
          simp

theorem mergeT_wf_idem : ∀ (fuel : Nat) (sp tp : String) (src : FsTree) (ts : TState),
    WF src → WFT ts →
    (WF (mergeT false fuel sp tp src ts).1 ∧
     WFT (mergeT false fuel sp tp src ts).2.1) ∧
    ((mergeT false fuel sp tp (mergeT false fuel sp tp src ts).1
        (mergeT false fuel sp tp src ts).2.1).1 =
       (mergeT false fuel sp tp src ts).1 ∧
     (mergeT false fuel sp tp (mergeT false fuel sp tp src ts).1
        (mergeT false fuel sp tp src ts).2.1).2.1 =
       (mergeT false fuel sp tp src ts).2.1) := by
  intro fuel
  induction fuel with
  | zero =>
    intro sp tp src ts hWF hWFT
    exact ⟨⟨hWF, hWFT⟩, rfl, rfl⟩
  | succ fuel ih =>
    intro sp tp src ts hWF hWFT
    cases ts with
    | file =>
      have h1 := mergeT_file_id false (fuel + 1) sp tp src
      constructor
      · rw [h1.1, h1.2]
        exact ⟨hWF, trivial⟩
      · rw [h1.1, h1.2]
        exact ⟨(mergeT_file_id false (fuel + 1) sp tp src).1,
          (mergeT_file_id false (fuel + 1) sp tp src).2⟩
    | dir t =>
      cases src with
      | node ses =>
        cases t with
        | node tesT =>
          cases hWF with
          | node _ hnds hsubs =>
            have hWFt : WF (.node tesT) := hWFT
            cases hWFt with
            | node _ hndT hsubT =>
              obtain ⟨tes2, hEq, hAcc2, hMono, hStable, hSub, hWF2⟩ :=
                mergeEntries_establishes fuel sp tp
                  (fun sp2 tp2 src2 ts2 h1 h2 => ih sp2 tp2 src2 ts2 h1 h2)
                  ses tesT [] [] hnds hsubs ⟨hndT, hsubT⟩
                  (fun e he => absurd he (List.not_mem_nil e))
                  (fun e he => absurd he (List.not_mem_nil e))
                  (fun n sd h => absurd h (List.not_mem_nil (n, some sd)))
              have hkey : mergeT false (fuel + 1) sp tp (.node ses) (.dir (.node tesT)) =
                  (FsTree.node (mergeEntries false (mergeT false fuel) sp tp ses
                      (some tesT) [] []).2.1,
                   TState.dir (.node tes2),
                   [RemoteOp.list (joinP sp "*"), RemoteOp.mkdir tp] ++
                     (mergeEntries false (mergeT false fuel) sp tp ses
                       (some tesT) [] []).2.2) := by
                rw [mergeT.eq_def]
                dsimp only [FsTree.entries]
                rw [hEq]
              rw [hkey]
              dsimp only
              have hsubses : List.Sublist
                  (names (mergeEntries false (mergeT false fuel) sp tp ses
                    (some tesT) [] []).2.1) (names ses) := by
                simpa [names] using hSub
              constructor
              · constructor
                · exact WF.node _ (List.Nodup.sublist hsubses hnds) hWF2
                · exact WF.node _ hAcc2.1 hAcc2.2
              · have hst := mergeEntries_stable fuel sp tp
                  (mergeEntries false (mergeT false fuel) sp tp ses
                    (some tesT) [] []).2.1 tes2 [] [] hStable
                rw [mergeT.eq_def]
                dsimp only [FsTree.entries]
                constructor
                · rw [hst.2]
                  rfl
                · rw [hst.1]
    | absent =>
      cases src with
      | node ses =>
        cases hWF with
        | node _ hnds hsubs =>
          obtain ⟨tes2, hEq, hAcc2, hMono, hStable, hSub, hWF2⟩ :=
            mergeEntries_establishes fuel sp tp
              (fun sp2 tp2 src2 ts2 h1 h2 => ih sp2 tp2 src2 ts2 h1 h2)
              ses [] [] [] hnds hsubs
              ⟨List.nodup_nil, fun n td h => absurd h (List.not_mem_nil (n, some td))⟩
              (fun e he => absurd he (List.not_mem_nil e))
              (fun e he => absurd he (List.not_mem_nil e))
              (fun n sd h => absurd h (List.not_mem_nil (n, some sd)))
          have hkey : mergeT false (fuel + 1) sp tp (.node ses) .absent =
              (FsTree.node (mergeEntries false (mergeT false fuel) sp tp ses
                  (some []) [] []).2.1,
               TState.dir (.node tes2),
               [RemoteOp.list (joinP sp "*"), RemoteOp.mkdir tp] ++
                 (mergeEntries false (mergeT false fuel) sp tp ses
                   (some []) [] []).2.2) := by
            rw [mergeT.eq_def]
            dsimp only [FsTree.entries]
            rw [hEq]
          rw [hkey]
          dsimp only
          have hsubses : List.Sublist
              (names (mergeEntries false (mergeT false fuel) sp tp ses
                (some []) [] []).2.1) (names ses) := by
            simpa [names] using hSub
          constructor
          · constructor
            · exact WF.node _ (List.Nodup.sublist hsubses hnds) hWF2
            · exact WF.node _ hAcc2.1 hAcc2.2
          · have hst := mergeEntries_stable fuel sp tp
              (mergeEntries false (mergeT false fuel) sp tp ses
                (some []) [] []).2.1 tes2 [] [] hStable
            rw [mergeT.eq_def]
            dsimp only [FsTree.entries]
            constructor
            · rw [hst.2]
              rfl
            · rw [hst.1]




theorem exMergeSub_wf : WF (FsTree.node [("b.jpg", (none : Option FsTree))]) := by
  refine WF.node _ (by decide) ?_
  intro n sd h
  simp at h

theorem exMergeSrc_wf : WF exMergeSrc := by
  refine WF.node _ (by decide) ?_
  intro n sd h
  simp only [exMergeSrc, List.mem_cons, List.not_mem_nil, or_false] at h
  rcases h with h | h
  · exact absurd (congrArg Prod.snd h) (by simp)
  · have h2 := congrArg Prod.snd h
    simp only [Option.some.injEq] at h2
    rw [h2]
    exact exMergeSub_wf

theorem exMergeTgt_wf : WFT exMergeTgt := by
  refine WF.node _ (by decide) ?_
  intro n sd h
  simp at h

/-- C8: rerunning the Mover over the same source and target after a first
complete run is a no-op. For a well-formed source tree and target state,
the second run of `mergeDirectoryContents` (any fuel, non-dry) returns
exactly the source tree and target state the first run produced: every
file either was already moved out of the source, or its rename fails on
the name now existing at the target and is skipped. -/
theorem c8_mover_rerun_noop (fuel : Nat) (sp tp : String) (src : FsTree) (ts : TState)
    (hWF : WF src) (hWFT : WFT ts) :
    (mergeT false fuel sp tp (mergeT false fuel sp tp src ts).1
      (mergeT false fuel sp tp src ts).2.1).1 = (mergeT false fuel sp tp src ts).1 ∧
    (mergeT false fuel sp tp (mergeT false fuel sp tp src ts).1
      (mergeT false fuel sp tp src ts).2.1).2.1 = (mergeT false fuel sp tp src ts).2.1 :=
  (mergeT_wf_idem fuel sp tp src ts hWF hWFT).2

theorem c8_mover_rerun_noop_witness :
    WF exMergeSrc ∧ WFT exMergeTgt ∧
    ((mergeT false 2 "s" "t" (mergeT false 2 "s" "t" exMergeSrc exMergeTgt).1
       (mergeT false 2 "s" "t" exMergeSrc exMergeTgt).2.1).1 =
      (mergeT false 2 "s" "t" exMergeSrc exMergeTgt).1 ∧
     (mergeT false 2 "s" "t" (mergeT false 2 "s" "t" exMergeSrc exMergeTgt).1
       (mergeT false 2 "s" "t" exMergeSrc exMergeTgt).2.1).2.1 =
      (mergeT false 2 "s" "t" exMergeSrc exMergeTgt).2.1) :=
  ⟨exMergeSrc_wf, exMergeTgt_wf,
   c8_mover_rerun_noop 2 "s" "t" exMergeSrc exMergeTgt exMergeSrc_wf exMergeTgt_wf⟩

end Takeout
